import Mathlib

/-!
Verification of the task scheduler (`src/task_scheduler.py`).

This file gives a shallow embedding of the scheduler's core: the task data
model, Kahn's topological sort with cycle detection (`_topological_sort`),
task validation (`validate_tasks`), the critical-path runtime estimator
(`calculate_expected_runtime`), task registration (`add_task`), and an
abstract small-step model of the dependency-gated execution engine
(`run_tasks` / `_start_task`).

Modelling conventions:
* A Python dict in insertion order is embedded as a `List` with pairwise
  distinct keys; `add_task`'s dict assignment is `upsert` (update in place
  on an existing key, append otherwise).
* Durations are `Nat`: the core's interface contract delivers non-negative
  integer durations.
* The single `ValueError("Circular dependency detected")` raised by
  `_topological_sort` is embedded as the `none` result of `topologicalSort`;
  a Python `KeyError` during the estimator's dict lookups is embedded as a
  `none` result of the estimator.
* Error strings built by `validate_tasks` are embedded structurally as
  `SchedError` values carrying exactly the data interpolated into the
  corresponding Python message.
-/

namespace TaskSched

/-- The immutable part of a task record: `Task.__init__` fields `name`,
`duration`, `dependencies`.  The mutable observation fields
(`start_time`, `end_time`, `actual_duration`) are modelled separately by
the execution-engine trace. -/
structure Task where
  name : String
  duration : Nat
  dependencies : List String
deriving DecidableEq, Repr

/-- Scheduler state: the task registry `self.tasks` (a dict in insertion
order) and the cached `self.execution_order`. -/
structure Scheduler where
  tasks : List Task
  execution_order : List String
deriving DecidableEq, Repr

/-- An error entry appended by `validate_tasks`: either the message
`"Task '<t>' depends on missing task '<d>'"` (carrying the task and
dependency names it interpolates) or the message
`"Circular dependency detected: ..."`. -/
inductive SchedError where
  | missingDep (taskName dep : String)
  | cycle
deriving DecidableEq, Repr

/-- The keys of the `self.tasks` dict, in insertion order. -/
def taskNames (ts : List Task) : List String :=
  ts.map (fun t => t.name)

/-- Dict lookup `self.tasks[n]` (`none` embeds a Python `KeyError`). -/
def findTask (ts : List Task) (n : String) : Option Task :=
  ts.find? (fun t => t.name = n)

/-- The dependency list of the task named `n` (empty if no such task). -/
def depsOf (ts : List Task) (n : String) : List String :=
  match findTask ts n with
  | some t => t.dependencies
  | none => []

/-- The duration of the task named `n` (0 if no such task; total
convenience form used only in specifications, never on a missing name). -/
def durOf (ts : List Task) (n : String) : Nat :=
  match findTask ts n with
  | some t => t.duration
  | none => 0

/-- All dependency edges `(dep, dependent)` declared by the collection. -/
def depEdges (ts : List Task) : List (String × String) :=
  ts.flatMap (fun t => t.dependencies.map (fun d => (d, t.name)))

/-- `depRel ts a b`: task `b` declares `a` as a dependency (`a` must run
before `b`).  Acyclicity of the collection is well-foundedness of this
relation. -/
def depRel (ts : List Task) (a b : String) : Prop :=
  (a, b) ∈ depEdges ts

/-- Every declared dependency name exists in the collection. -/
def Resolvable (ts : List Task) : Prop :=
  ∀ t ∈ ts, ∀ d ∈ t.dependencies, d ∈ taskNames ts

/-- `c` is a (nonempty) cycle in the dependency graph: consecutive
elements are dependency edges and the head task depends on the last
element. -/
def IsCycle (ts : List Task) (c : List String) : Prop :=
  c ≠ [] ∧ c.Chain' (fun a b => a ∈ depsOf ts b) ∧
    (c.getLast?.getD "") ∈ depsOf ts (c.head?.getD "")

/-- `add_task`: dict assignment `self.tasks[task.name] = task` (updates in
place on an existing key, otherwise appends). -/
def upsert : List Task → Task → List Task
  | [], t => [t]
  | u :: us, t => if u.name = t.name then t :: us else u :: upsert us t

/-- `TaskScheduler.add_task` (it does not touch `self.execution_order`). -/
def addTask (s : Scheduler) (t : Task) : Scheduler :=
  ⟨upsert s.tasks t, s.execution_order⟩

/-- The missing-dependency errors collected by the first loop of
`validate_tasks`, in iteration order (all violations, one entry per
offending occurrence). -/
def missingDepErrors (ts : List Task) : List SchedError :=
  ts.flatMap (fun t =>
    (t.dependencies.filter (fun d => !(decide (d ∈ taskNames ts)))).map
      (fun d => SchedError.missingDep t.name d))

/-- The adjacency list `graph[d]` built by `_topological_sort`: one entry
`t.name` per occurrence of `d` in `t.dependencies`, in task iteration
order. -/
def graphSucc (ts : List Task) (d : String) : List String :=
  ts.flatMap (fun t =>
    (t.dependencies.filter (fun u => decide (u = d))).map (fun _ => t.name))

/-- The initial `in_degree` table: each task's dependency count (counting
occurrences); 0 on names outside the collection (the Python dict has no
such keys and never touches them). -/
def initDeg (ts : List Task) (n : String) : Int :=
  ((depsOf ts n).length : Int)

/-- The initial queue: all zero-in-degree tasks, in dict iteration
(insertion) order. -/
def seeds (ts : List Task) : List String :=
  (taskNames ts).filter (fun n => decide (initDeg ts n = 0))

/-- The inner loop of `_topological_sort`: decrement `in_degree` of each
neighbour of the dequeued task in adjacency order, collecting (in order)
the neighbours whose degree reaches exactly 0. -/
def processNeighbors : List String → (String → Int) → (String → Int) × List String
  | [], deg => (deg, [])
  | n :: ns, deg =>
    let d : Int := deg n - 1
    let deg1 : String → Int := fun m => if m = n then d else deg m
    let rest := processNeighbors ns deg1
    (rest.1, (if d = 0 then [n] else []) ++ rest.2)

/-- The `while queue:` loop of `_topological_sort`, with `g` the fixed
adjacency map.  Fuel bounds the iteration count; `kahnResult` supplies
fuel provably sufficient for the loop to drain the queue. -/
def kahnLoop (g : String → List String) :
    Nat → List String → (String → Int) → List String → List String
  | _, [], _, res => res
  | 0, _ :: _, _, res => res
  | fuel + 1, c :: q, deg, res =>
    let p := processNeighbors (g c) deg
    kahnLoop g fuel (q ++ p.2) p.1 (res ++ [c])

/-- The list `result` accumulated by `_topological_sort`'s loop. -/
def kahnResult (ts : List Task) : List String :=
  kahnLoop (graphSucc ts) ts.length (seeds ts) (initDeg ts) []

/-- `TaskScheduler._topological_sort`: `none` embeds the raised
`ValueError("Circular dependency detected")` (the only failure mode),
`some r` the returned order (which the method also stores in
`self.execution_order`). -/
def topologicalSort (ts : List Task) : Option (List String) :=
  if (kahnResult ts).length = ts.length then some (kahnResult ts) else none

/-- `TaskScheduler.validate_tasks`: returns the `(ok, errors)` pair
together with the resulting scheduler state (on a successful sort the
method has stored the order in `self.execution_order`; on any failure the
state is unchanged). -/
def validateTasks (s : Scheduler) : Bool × List SchedError × Scheduler :=
  let errs := missingDepErrors s.tasks
  if errs.isEmpty then
    match topologicalSort s.tasks with
    | some r => (true, [], ⟨s.tasks, r⟩)
    | none => (false, [SchedError.cycle], s)
  else
    (false, errs, s)

/-- `foldl max 0`; on a nonempty list of `Nat` this agrees with Python's
`max(...)` over the same values. -/
def maxOver (l : List Nat) : Nat :=
  l.foldl max 0

/-- The generator `max(start_times[dep] + self.tasks[dep].duration for dep
in task.dependencies)`: `none` embeds a `KeyError` on either lookup (and
the unreachable empty-generator case). -/
def depsMax (ts : List Task) (st : String → Option Nat) : List String → Option Nat
  | [] => none
  | [d] =>
    match st d, findTask ts d with
    | some v, some t => some (v + t.duration)
    | _, _ => none
  | d :: ds =>
    match st d, findTask ts d, depsMax ts st ds with
    | some v, some t, some m => some (max (v + t.duration) m)
    | _, _, _ => none

/-- The first loop of `calculate_expected_runtime`: fill the
`start_times` dict along the execution order.  `none` embeds a
`KeyError`. -/
def computeStartTimes (ts : List Task) :
    List String → (String → Option Nat) → Option (String → Option Nat)
  | [], st => some st
  | n :: rest, st =>
    match findTask ts n with
    | none => none
    | some t =>
      if t.dependencies.isEmpty then
        computeStartTimes ts rest (fun m => if m = n then some 0 else st m)
      else
        match depsMax ts st t.dependencies with
        | none => none
        | some v => computeStartTimes ts rest (fun m => if m = n then some v else st m)

/-- The second loop of `calculate_expected_runtime`: fold
`total = max(total, start + duration)` along the execution order. -/
def totalRuntime (ts : List Task) (st : String → Option Nat) :
    Nat → List String → Option Nat
  | acc, [] => some acc
  | acc, n :: rest =>
    match st n, findTask ts n with
    | some v, some t => totalRuntime ts st (max acc (v + t.duration)) rest
    | _, _ => none

/-- `TaskScheduler.calculate_expected_runtime`: re-sorts only when the
cached `self.execution_order` is empty, then runs the two loops.  Returns
the computed total together with the resulting scheduler state; `none`
embeds an uncaught `ValueError` (cycle) or `KeyError`. -/
def calcExpectedRuntime (s : Scheduler) : Option (Nat × Scheduler) :=
  match (if s.execution_order.isEmpty then topologicalSort s.tasks
         else some s.execution_order) with
  | none => none
  | some order =>
    match computeStartTimes s.tasks order (fun _ => none) with
    | none => none
    | some st =>
      match totalRuntime s.tasks st 0 order with
      | none => none
      | some total => some (total, ⟨s.tasks, order⟩)

/-- Replace the duration of the task named `n` (the underlying collection
with one task's declared duration changed). -/
def setDuration (ts : List Task) (n : String) (d : Nat) : List Task :=
  ts.map (fun t => if t.name = n then ⟨t.name, d, t.dependencies⟩ else t)


/-- An observable action of the execution engine on a task's mutable
observation fields: `start n` is `_start_task` writing `task.start_time`
and dispatching the work unit; `complete n` is the polling loop observing
the unit finished and writing `task.end_time` / `task.actual_duration`. -/
inductive ExecEvent where
  | start (n : String)
  | complete (n : String)
deriving DecidableEq, Repr

/-- The controller state of `run_tasks`: the event trace so far, the
`active_tasks` keys, and the `completed_tasks` set (in first-completion
order). -/
structure ExecState where
  trace : List ExecEvent
  active : List String
  completed : List String
deriving DecidableEq, Repr

/-- `run_tasks` starts with no active or completed tasks and no
observation fields written. -/
def initExecState : ExecState := ⟨[], [], []⟩

/-- One primitive transition of `run_tasks`'s controller loop.  The
controller's passes are sequences of these transitions: the seeding loop
and the readiness pass perform `startTask` (guarded exactly by the code's
`task_name not in active_tasks and task_name not in completed_tasks and
all(dep in completed_tasks for dep in task.dependencies)` test, with the
seeding case a special instance); the completion poll performs
`completeTask` for each thread observed dead.  Which threads are observed
dead first is timing-dependent, so the model lets any active task
complete at any time: every behaviour of the Python loop is a sequence of
these transitions. -/
inductive execStep (ts : List Task) : ExecState → ExecState → Prop
  | startTask (σ : ExecState) (n : String)
      (hmem : n ∈ taskNames ts) (hna : n ∉ σ.active) (hnc : n ∉ σ.completed)
      (hdeps : ∀ d ∈ depsOf ts n, d ∈ σ.completed) :
      execStep ts σ ⟨σ.trace ++ [ExecEvent.start n], σ.active ++ [n], σ.completed⟩
  | completeTask (σ : ExecState) (n : String) (ha : n ∈ σ.active) :
      execStep ts σ
        ⟨σ.trace ++ [ExecEvent.complete n], σ.active.erase n, σ.completed ++ [n]⟩

/-- States the controller loop can reach from the start of a run. -/
def execReachable (ts : List Task) (σ : ExecState) : Prop :=
  Relation.ReflTransGen (execStep ts) initExecState σ

/-- Each observation field is written at most once per run: at most one
`start` (writing `start_time`) and one `complete` (writing `end_time` and
`actual_duration`) per task in the trace. -/
def WritesAtMostOnce (σ : ExecState) : Prop :=
  ∀ n, σ.trace.count (ExecEvent.start n) ≤ 1 ∧
    σ.trace.count (ExecEvent.complete n) ≤ 1

/-- No task starts before its dependencies complete: every prefix of the
trace that contains `start n` already contains `complete d` for each
dependency `d` of `n`. -/
def DepsCompleteBeforeStart (ts : List Task) (tr : List ExecEvent) : Prop :=
  ∀ k n, ExecEvent.start n ∈ tr.take k →
    ∀ d ∈ depsOf ts n, ExecEvent.complete d ∈ tr.take k

/-- Every element of `res` has all its dependencies strictly earlier in
`res`: the dependency-precedence property of the accumulated result. -/
def PrefixClosed (ts : List Task) (res : List String) : Prop :=
  ∀ pre n post, res = pre ++ n :: post → ∀ d ∈ depsOf ts n, d ∈ pre

/-- The invariant of the `while queue:` loop of `_topological_sort`,
relating the queue, the accumulated result and the `in_degree` table. -/
structure KahnInv (ts : List Task) (q res : List String) (deg : String → Int) : Prop where
  nodup : (res ++ q).Nodup
  subset : ∀ n ∈ res ++ q, n ∈ taskNames ts
  deg_eq : ∀ n, deg n = ((depsOf ts n).countP (fun u => !(decide (u ∈ res))) : Int)
  queue_iff : ∀ n ∈ taskNames ts,
    (n ∈ q ↔ (n ∉ res ∧ ∀ d ∈ depsOf ts n, d ∈ res))
  closed : PrefixClosed ts res

/-- The start-time fixpoint equation at task `n` (the claim's earliest
start time: maximum over the dependencies of dependency start plus
dependency duration, which is 0 when there are no dependencies). -/
def FixAt (ts : List Task) (st : String → Option Nat) (n : String) : Prop :=
  st n = some (maxOver ((depsOf ts n).map (fun d => (st d).getD 0 + durOf ts d)))

/-- The invariant of the `run_tasks` controller loop: event counts match
the active/completed bookkeeping, the bookkeeping lists are duplicate-free
and disjoint, and every `start` is preceded by the `complete` of every
dependency. -/
structure ExecInv (ts : List Task) (σ : ExecState) : Prop where
  start_count : ∀ n, σ.trace.count (ExecEvent.start n) =
    (if n ∈ σ.active ∨ n ∈ σ.completed then 1 else 0)
  complete_count : ∀ n, σ.trace.count (ExecEvent.complete n) =
    (if n ∈ σ.completed then 1 else 0)
  active_nodup : σ.active.Nodup
  completed_nodup : σ.completed.Nodup
  disj : ∀ n, n ∈ σ.active → n ∉ σ.completed
  order_ok : DepsCompleteBeforeStart ts σ.trace

/-! ### Concrete collections used by the witnesses -/

/-- Scenario 1 of the specification: `A(2,[]), B(3,[A]), C(1,[A]),
D(2,[B,C])`. -/
def exTasks : List Task :=
  [⟨"A", 2, []⟩, ⟨"B", 3, ["A"]⟩, ⟨"C", 1, ["A"]⟩, ⟨"D", 2, ["B", "C"]⟩]

/-- A rank function certifying acyclicity of `exTasks`. -/
def exRank (n : String) : Nat :=
  if n = "A" then 0 else if n = "D" then 2 else 1

/-- Scenario 2: a two-cycle `A ↔ B`. -/
def cycTasks : List Task := [⟨"A", 1, ["B"]⟩, ⟨"B", 1, ["A"]⟩]

/-- Scenario 3: a task with an undefined dependency. -/
def misTasks : List Task := [⟨"A", 1, ["Z"]⟩]

/-- A rank function certifying acyclicity of `misTasks`. -/
def misRank (n : String) : Nat := if n = "Z" then 0 else 1

/-- A collection with both a missing dependency (`A` needs `Z`) and a
cycle (`B ↔ C`). -/
def bothTasks : List Task :=
  [⟨"A", 1, ["Z"]⟩, ⟨"B", 1, ["C"]⟩, ⟨"C", 1, ["B"]⟩]

/-- `exTasks` registered in a different insertion order. -/
def exTasksShuffled : List Task :=
  [⟨"B", 3, ["A"]⟩, ⟨"D", 2, ["C", "B"]⟩, ⟨"A", 2, []⟩, ⟨"C", 1, ["A"]⟩]

/-- A scheduler whose order over the single task `A` is already cached. -/
def c8s1 : Scheduler := ⟨[⟨"A", 2, []⟩], ["A"]⟩

/-- `c8s1` after `add_task(B)`; the stale cached order survives. -/
def c8s2 : Scheduler := addTask c8s1 ⟨"B", 3, ["A"]⟩

/-- A two-task collection for exercising the execution engine. -/
def exec2Tasks : List Task := [⟨"A", 1, []⟩, ⟨"B", 1, ["A"]⟩]

/-- A state of the engine after starting and completing `A` and then
starting `B`. -/
def execFinal : ExecState :=
  ⟨[ExecEvent.start "A", ExecEvent.complete "A", ExecEvent.start "B"], ["B"], ["A"]⟩

/-! ### Basic lemmas about the embedded data model -/

theorem mem_taskNames {ts : List Task} {n : String} :
    n ∈ taskNames ts ↔ ∃ t ∈ ts, t.name = n := by
  simp [taskNames]

theorem findTask_eq_none {ts : List Task} {n : String} :
    findTask ts n = none ↔ n ∉ taskNames ts := by
  simp [findTask, List.find?_eq_none, taskNames]

theorem findTask_mem {ts : List Task} {n : String} {t : Task}
    (h : findTask ts n = some t) : t ∈ ts ∧ t.name = n := by
  have h1 := List.find?_some h
  have h2 := List.mem_of_find?_eq_some h
  simp at h1
  exact ⟨h2, h1⟩

theorem findTask_isSome {ts : List Task} {n : String} :
    (findTask ts n).isSome ↔ n ∈ taskNames ts := by
  rcases h : findTask ts n with _ | t
  · simp [findTask_eq_none.mp h]
  · simp
    rcases findTask_mem h with ⟨h1, h2⟩
    exact mem_taskNames.mpr ⟨t, h1, h2⟩

theorem depsOf_of_not_mem {ts : List Task} {n : String}
    (h : n ∉ taskNames ts) : depsOf ts n = [] := by
  simp [depsOf, findTask_eq_none.mpr h]

theorem mem_depsOf_names {ts : List Task} {n d : String}
    (h : d ∈ depsOf ts n) : n ∈ taskNames ts := by
  by_contra hc
  rw [depsOf_of_not_mem hc] at h
  exact absurd h (List.not_mem_nil d)

/-- With pairwise distinct names, the dict lookup on a member's name
returns that member. -/
theorem findTask_of_mem {ts : List Task} {t : Task}
    (hnd : (taskNames ts).Nodup) (h : t ∈ ts) : findTask ts t.name = some t := by
  induction ts with
  | nil => exact absurd h (List.not_mem_nil t)
  | cons u us ih =>
    simp only [taskNames, List.map_cons, List.nodup_cons] at hnd
    rcases List.mem_cons.mp h with rfl | hmem
    · simp [findTask]
    · have hne : u.name ≠ t.name := by
        intro he
        exact hnd.1 (he ▸ (List.mem_map.mpr ⟨t, hmem, rfl⟩))
      simp only [findTask, List.find?_cons, decide_eq_true_eq]
      rw [decide_eq_false (by intro he; exact hne he)]
      exact ih hnd.2 hmem

theorem depsOf_of_mem {ts : List Task} {t : Task}
    (hnd : (taskNames ts).Nodup) (h : t ∈ ts) : depsOf ts t.name = t.dependencies := by
  simp [depsOf, findTask_of_mem hnd h]

theorem durOf_of_mem {ts : List Task} {t : Task}
    (hnd : (taskNames ts).Nodup) (h : t ∈ ts) : durOf ts t.name = t.duration := by
  simp [durOf, findTask_of_mem hnd h]

theorem depRel_of_mem_depsOf {ts : List Task} {a b : String}
    (h : a ∈ depsOf ts b) : depRel ts a b := by
  unfold depsOf at h
  rcases hf : findTask ts b with _ | t
  · rw [hf] at h; exact absurd h (List.not_mem_nil a)
  · rw [hf] at h
    rcases findTask_mem hf with ⟨hmem, hname⟩
    exact List.mem_flatMap.mpr ⟨t, hmem, List.mem_map.mpr ⟨a, h, by rw [hname]⟩⟩

theorem mem_depsOf_of_depRel {ts : List Task} {a b : String}
    (hnd : (taskNames ts).Nodup) (h : depRel ts a b) : a ∈ depsOf ts b := by
  rcases List.mem_flatMap.mp h with ⟨t, hmem, hpair⟩
  rcases List.mem_map.mp hpair with ⟨d, hd, heq⟩
  obtain ⟨rfl, rfl⟩ : a = d ∧ b = t.name := by
    have h1 := congrArg Prod.fst heq
    have h2 := congrArg Prod.snd heq
    simp at h1 h2
    exact ⟨h1.symm, h2.symm⟩
  rw [depsOf_of_mem hnd hmem]
  exact hd

theorem resolvable_depsOf {ts : List Task} {n d : String}
    (hres : Resolvable ts) (h : d ∈ depsOf ts n) : d ∈ taskNames ts := by
  unfold depsOf at h
  rcases hf : findTask ts n with _ | t
  · rw [hf] at h; exact absurd h (List.not_mem_nil d)
  · rw [hf] at h
    exact hres t (findTask_mem hf).1 d h

theorem resolvable_iff_missingDepErrors {ts : List Task} :
    Resolvable ts ↔ missingDepErrors ts = [] := by
  simp only [Resolvable, missingDepErrors, List.flatMap_eq_nil_iff, List.map_eq_nil_iff,
    List.filter_eq_nil_iff]
  constructor
  · intro h t ht d hd
    simp [h t ht d hd]
  · intro h t ht d hd
    have := h t ht d hd
    simpa using this

/-! ### The adjacency structure built by `_topological_sort` -/

theorem mem_graphSucc {ts : List Task} {d n : String} :
    n ∈ graphSucc ts d ↔ ∃ t ∈ ts, t.name = n ∧ d ∈ t.dependencies := by
  simp only [graphSucc, List.mem_flatMap, List.mem_map, List.mem_filter,
    decide_eq_true_eq]
  constructor
  · rintro ⟨t, ht, u, ⟨hu, rfl⟩, rfl⟩
    exact ⟨t, ht, rfl, hu⟩
  · rintro ⟨t, ht, rfl, hd⟩
    exact ⟨t, ht, d, ⟨hd, rfl⟩, rfl⟩

theorem mem_graphSucc_iff {ts : List Task} (hnd : (taskNames ts).Nodup) {d n : String} :
    n ∈ graphSucc ts d ↔ n ∈ taskNames ts ∧ d ∈ depsOf ts n := by
  rw [mem_graphSucc]
  constructor
  · rintro ⟨t, ht, rfl, hd⟩
    exact ⟨mem_taskNames.mpr ⟨t, ht, rfl⟩, by rw [depsOf_of_mem hnd ht]; exact hd⟩
  · rintro ⟨hn, hd⟩
    rcases mem_taskNames.mp hn with ⟨t, ht, rfl⟩
    rw [depsOf_of_mem hnd ht] at hd
    exact ⟨t, ht, rfl, hd⟩

theorem graphSucc_elem_names {ts : List Task} {d n : String}
    (h : n ∈ graphSucc ts d) : n ∈ taskNames ts := by
  rcases mem_graphSucc.mp h with ⟨t, ht, rfl, _⟩
  exact mem_taskNames.mpr ⟨t, ht, rfl⟩

theorem count_graphSucc {ts : List Task} (hnd : (taskNames ts).Nodup) (d n : String) :
    (graphSucc ts d).count n = (depsOf ts n).count d := by
  induction ts with
  | nil => simp [graphSucc, depsOf, findTask]
  | cons u us ih =>
    simp only [taskNames, List.map_cons, List.nodup_cons] at hnd
    have hrec := ih hnd.2
    have hhead : ((u.dependencies.filter (fun x => decide (x = d))).map
        (fun _ => u.name) : List String).count n =
        if u.name = n then u.dependencies.count d else 0 := by
      by_cases hn : u.name = n
      · subst hn
        rw [if_pos rfl, List.count_eq_length.mpr]
        · rw [List.length_map, ← List.countP_eq_length_filter,
            List.count_eq_countP]
          apply List.countP_congr
          intro x _
          by_cases h : x = d <;> simp [h]
        · intro b hb
          rcases List.mem_map.mp hb with ⟨x, _, rfl⟩
          rfl
      · rw [if_neg hn, List.count_eq_zero]
        intro hc
        rcases List.mem_map.mp hc with ⟨x, _, heq⟩
        exact hn heq
    have hcons : (graphSucc (u :: us) d).count n =
        (if u.name = n then u.dependencies.count d else 0) + (graphSucc us d).count n := by
      simp only [graphSucc, List.flatMap_cons, List.count_append]
      rw [← hhead]
    rw [hcons]
    by_cases hn : u.name = n
    · subst hn
      have h0 : (graphSucc us d).count u.name = 0 := by
        rw [List.count_eq_zero]
        intro hc
        exact hnd.1 (by simpa [taskNames] using graphSucc_elem_names hc)
      have hdeps : depsOf (u :: us) u.name = u.dependencies := by
        simp [depsOf, findTask]
      rw [hdeps, h0, if_pos rfl]
      omega
    · have hdeps : depsOf (u :: us) n = depsOf us n := by
        simp only [depsOf, findTask, List.find?_cons]
        rw [decide_eq_false (by intro he; exact hn he)]
      rw [hdeps, hrec, if_neg hn]
      omega

/-! ### The neighbour-processing inner loop -/

theorem processNeighbors_fst (ns : List String) : ∀ (deg : String → Int) (m : String),
    (processNeighbors ns deg).1 m = deg m - (ns.count m : Int) := by
  induction ns with
  | nil => intro deg m; simp [processNeighbors]
  | cons n ns ih =>
    intro deg m
    simp only [processNeighbors]
    rw [ih]
    by_cases hm : m = n
    · subst hm
      rw [List.count_cons_self]
      simp
      omega
    · rw [List.count_cons_of_ne (by simpa using hm)]
      simp [hm]

theorem processNeighbors_mem_snd (ns : List String) : ∀ (deg : String → Int) (m : String),
    m ∈ (processNeighbors ns deg).2 ↔
      m ∈ ns ∧ 0 < deg m ∧ deg m ≤ (ns.count m : Int) := by
  induction ns with
  | nil => intro deg m; simp [processNeighbors]
  | cons n ns ih =>
    intro deg m
    simp only [processNeighbors, List.mem_append, ih]
    by_cases hm : m = n
    · subst hm
      rw [List.count_cons_self]
      have hc : m ∈ ns ↔ 0 < (ns.count m : Int) := by
        rw [← List.count_pos_iff]
        omega
      simp only [hc]
      by_cases hd : deg m - 1 = 0 <;> simp [hd, List.mem_singleton]
      · omega
      · rw [hc]
        omega
    · rw [List.count_cons_of_ne (by simpa using hm)]
      have hmem : m ∈ n :: ns ↔ m ∈ ns := by simp [hm]
      rw [hmem]
      have hne : m ∉ (if deg n - 1 = 0 then [n] else ([] : List String)) := by
        by_cases hd : deg n - 1 = 0 <;> simp [hd, hm]
      simp only [show (fun m0 => if m0 = n then deg n - 1 else deg m0) m = deg m by
        simp [hm]]
      constructor
      · rintro (habs | h)
        · exact absurd habs hne
        · exact h
      · intro h
        exact Or.inr h

theorem processNeighbors_snd_nodup (ns : List String) : ∀ (deg : String → Int),
    (processNeighbors ns deg).2.Nodup := by
  induction ns with
  | nil => intro deg; simp [processNeighbors]
  | cons n ns ih =>
    intro deg
    simp only [processNeighbors]
    by_cases hd : deg n - 1 = 0
    · rw [if_pos hd, List.singleton_append, List.nodup_cons]
      refine ⟨?_, ih _⟩
      rw [processNeighbors_mem_snd]
      rintro ⟨-, h2, -⟩
      have h3 : (0 : Int) < deg n - 1 := by simpa using h2
      omega
    · rw [if_neg hd, List.nil_append]
      exact ih _

/-! ### Counting helpers for the in-degree bookkeeping -/

theorem countP_notMem_append_singleton (l res : List String) (c : String)
    (hc : c ∉ res) :
    l.countP (fun u => !(decide (u ∈ res ++ [c]))) + l.count c =
      l.countP (fun u => !(decide (u ∈ res))) := by
  induction l with
  | nil => simp
  | cons a l ih =>
    rw [List.countP_cons, List.countP_cons, List.count_cons]
    generalize hA : l.countP (fun u => !(decide (u ∈ res ++ [c]))) = A at ih ⊢
    generalize hB : l.countP (fun u => !(decide (u ∈ res))) = B at ih ⊢
    generalize hC : l.count c = C at ih ⊢
    by_cases hac : a = c
    · subst hac
      simp [hc]
      omega
    · have hca : ¬ c = a := fun h => hac h.symm
      by_cases har : a ∈ res
      · simp [hac, hca, har]
        omega
      · simp [hac, hca, har]
        omega

theorem countP_notMem_eq_zero {l res : List String} (h : ∀ x ∈ l, x ∈ res) :
    l.countP (fun u => !(decide (u ∈ res))) = 0 := by
  rw [List.countP_eq_zero]
  intro a ha
  simp [h a ha]

theorem countP_notMem_pos {l res : List String} {x : String}
    (hx : x ∈ l) (hnot : x ∉ res) :
    0 < l.countP (fun u => !(decide (u ∈ res))) := by
  rw [List.countP_pos_iff]
  exact ⟨x, hx, by simp [hnot]⟩

/-! ### The loop invariant of `_topological_sort` -/

theorem append_singleton_split {α : Type} {xs pre post : List α} {a b : α}
    (h : xs ++ [a] = pre ++ b :: post) :
    (pre = xs ∧ b = a ∧ post = []) ∨
      ∃ post2, xs = pre ++ b :: post2 ∧ post = post2 ++ [a] := by
  rcases List.eq_nil_or_concat post with rfl | ⟨post2, y, rfl⟩
  · left
    have h2 := List.append_inj' h rfl
    have h3 : a = b := by simpa using h2.2
    exact ⟨h2.1.symm, h3.symm, rfl⟩
  · right
    rw [List.concat_eq_append] at h ⊢
    rw [show pre ++ b :: (post2 ++ [y]) = (pre ++ b :: post2) ++ [y] by simp] at h
    have h2 := List.append_inj' h rfl
    obtain ⟨h3, h4⟩ := h2
    have h5 : a = y := by simpa using h4
    exact ⟨post2, h3, by rw [h5]⟩

theorem prefixClosed_append {ts : List Task} {res : List String} {c : String}
    (hres : PrefixClosed ts res) (hc : ∀ d ∈ depsOf ts c, d ∈ res) :
    PrefixClosed ts (res ++ [c]) := by
  intro pre n post heq d hd
  rcases append_singleton_split heq with ⟨rfl, rfl, rfl⟩ | ⟨post2, heq2, rfl⟩
  · exact hc d hd
  · exact hres pre n post2 heq2 d hd

theorem prefixClosed_mem_deps {ts : List Task} {res : List String}
    (hres : PrefixClosed ts res) {n : String} (hn : n ∈ res) :
    ∀ d ∈ depsOf ts n, d ∈ res := by
  rcases List.append_of_mem hn with ⟨pre, post, rfl⟩
  intro d hd
  exact List.mem_append_left _ (hres pre n post rfl d hd)


/-- One iteration of the `while queue:` loop preserves the invariant. -/
theorem kahnInv_step {ts : List Task} (hnd : (taskNames ts).Nodup)
    {c : String} {q res : List String} {deg : String → Int}
    (hinv : KahnInv ts (c :: q) res deg) :
    KahnInv ts (q ++ (processNeighbors (graphSucc ts c) deg).2) (res ++ [c])
      (processNeighbors (graphSucc ts c) deg).1 := by
  obtain ⟨hnodup, hsubset, hdeg, hqiff, hclosed⟩ := hinv
  have hcnames : c ∈ taskNames ts := hsubset c (by simp)
  obtain ⟨hcres, hcdeps⟩ : c ∉ res ∧ ∀ d ∈ depsOf ts c, d ∈ res :=
    (hqiff c hcnames).mp (List.mem_cons_self c q)
  have hdecomp : ∀ m : String,
      (depsOf ts m).countP (fun u => !(decide (u ∈ res ++ [c]))) +
        (depsOf ts m).count c =
        (depsOf ts m).countP (fun u => !(decide (u ∈ res))) :=
    fun m => countP_notMem_append_singleton (depsOf ts m) res c hcres
  have hdeg2 : ∀ m, (processNeighbors (graphSucc ts c) deg).1 m =
      (((depsOf ts m).countP (fun u => !(decide (u ∈ res ++ [c])))) : Int) := by
    intro m
    rw [processNeighbors_fst, hdeg m, count_graphSucc hnd]
    have := hdecomp m
    omega
  have hready : ∀ m, m ∈ (processNeighbors (graphSucc ts c) deg).2 ↔
      (m ∈ taskNames ts ∧ c ∈ depsOf ts m) ∧ 0 < deg m ∧
        deg m ≤ (((depsOf ts m).count c) : Int) := by
    intro m
    rw [processNeighbors_mem_snd, count_graphSucc hnd, mem_graphSucc_iff hnd]
  have hready_deps : ∀ m, m ∈ (processNeighbors (graphSucc ts c) deg).2 →
      ∀ d ∈ depsOf ts m, d ∈ res ++ [c] := by
    intro m hm
    obtain ⟨-, hpos, hle⟩ := (hready m).mp hm
    have h1 := hdecomp m
    have h2 := hdeg m
    have hz : (depsOf ts m).countP (fun u => !(decide (u ∈ res ++ [c]))) = 0 := by
      omega
    intro d hd
    have h4 := List.countP_eq_zero.mp hz d hd
    simp at h4
    by_cases hdr : d ∈ res
    · exact List.mem_append_left _ hdr
    · exact List.mem_append_right _ (by simp [h4 hdr])
  have hready_notres : ∀ m, m ∈ (processNeighbors (graphSucc ts c) deg).2 →
      m ∉ res := by
    intro m hm hmres
    obtain ⟨-, hpos, -⟩ := (hready m).mp hm
    have h0 : (depsOf ts m).countP (fun u => !(decide (u ∈ res))) = 0 :=
      countP_notMem_eq_zero (prefixClosed_mem_deps hclosed hmres)
    have h2 := hdeg m
    omega
  have hready_nec : ∀ m, m ∈ (processNeighbors (graphSucc ts c) deg).2 →
      m ≠ c := by
    intro m hm heq
    obtain ⟨⟨-, hcdep⟩, -, -⟩ := (hready m).mp hm
    subst heq
    exact hcres (hcdeps m hcdep)
  have hready_notq : ∀ m, m ∈ (processNeighbors (graphSucc ts c) deg).2 →
      m ∉ c :: q := by
    intro m hm hmq
    obtain ⟨⟨hmn, -⟩, hpos, -⟩ := (hready m).mp hm
    obtain ⟨-, hdeps⟩ := (hqiff m hmn).mp hmq
    have h0 := countP_notMem_eq_zero hdeps
    have h2 := hdeg m
    omega
  have hcq_nodup : (c :: q).Nodup := (List.nodup_append.mp hnodup).2.1
  have hcnotq : c ∉ q := (List.nodup_cons.mp hcq_nodup).1
  refine ⟨?_, ?_, hdeg2, ?_, prefixClosed_append hclosed hcdeps⟩
  · -- nodup
    have hrearr : (res ++ [c]) ++ (q ++ (processNeighbors (graphSucc ts c) deg).2) =
        (res ++ c :: q) ++ (processNeighbors (graphSucc ts c) deg).2 := by
      simp
    rw [hrearr, List.nodup_append]
    refine ⟨hnodup, processNeighbors_snd_nodup _ _, ?_⟩
    intro a ha ha2
    rcases List.mem_append.mp ha with h1 | h2
    · exact hready_notres a ha2 h1
    · exact hready_notq a ha2 h2
  · -- subset
    intro n hn
    rcases List.mem_append.mp hn with h1 | h2
    · rcases List.mem_append.mp h1 with h3 | h4
      · exact hsubset n (List.mem_append_left _ h3)
      · have : n = c := by simpa using h4
        exact this ▸ hcnames
    · rcases List.mem_append.mp h2 with h3 | h4
      · exact hsubset n (List.mem_append_right _ (List.mem_cons_of_mem c h3))
      · exact ((hready n).mp h4).1.1
  · -- queue_iff
    intro n hn
    constructor
    · intro hq2
      rcases List.mem_append.mp hq2 with h1 | h2
      · obtain ⟨hnres, hndeps⟩ := (hqiff n hn).mp (List.mem_cons_of_mem c h1)
        have hnc : n ≠ c := fun heq => hcnotq (heq ▸ h1)
        constructor
        · intro hmem
          rcases List.mem_append.mp hmem with h3 | h4
          · exact hnres h3
          · exact hnc (by simpa using h4)
        · intro d hd
          exact List.mem_append_left _ (hndeps d hd)
      · constructor
        · intro hmem
          rcases List.mem_append.mp hmem with h3 | h4
          · exact hready_notres n h2 h3
          · exact hready_nec n h2 (by simpa using h4)
        · exact hready_deps n h2
    · rintro ⟨hnres2, hndeps2⟩
      by_cases hcd : c ∈ depsOf ts n
      · apply List.mem_append_right
        rw [hready n]
        refine ⟨⟨hn, hcd⟩, ?_, ?_⟩
        · rw [hdeg n]
          have := countP_notMem_pos hcd hcres
          omega
        · rw [hdeg n]
          have h1 := hdecomp n
          have h2 : (depsOf ts n).countP (fun u => !(decide (u ∈ res ++ [c]))) = 0 :=
            countP_notMem_eq_zero hndeps2
          omega
      · apply List.mem_append_left
        have hdeps_res : ∀ d ∈ depsOf ts n, d ∈ res := by
          intro d hd
          rcases List.mem_append.mp (hndeps2 d hd) with h | h
          · exact h
          · exact absurd (show c ∈ depsOf ts n from (by simpa using h : d = c) ▸ hd) hcd
        have hnres : n ∉ res := fun h => hnres2 (List.mem_append_left _ h)
        have hmem := (hqiff n hn).mpr ⟨hnres, hdeps_res⟩
        rcases List.mem_cons.mp hmem with rfl | h
        · exact absurd (List.mem_append_right _ (by simp)) hnres2
        · exact h

/-! ### Running the loop to completion -/

theorem nodup_subset_length_le {l l2 : List String} (hn : l.Nodup)
    (hsub : ∀ x ∈ l, x ∈ l2) : l.length ≤ l2.length := by
  calc l.length = l.toFinset.card := (List.toFinset_card_of_nodup hn).symm
    _ ≤ l2.toFinset.card := Finset.card_le_card
        (fun x hx => List.mem_toFinset.mpr (hsub x (List.mem_toFinset.mp hx)))
    _ ≤ l2.length := l2.toFinset_card_le

theorem mem_of_nodup_length_ge {l l2 : List String} (hn : l.Nodup)
    (hsub : ∀ x ∈ l, x ∈ l2) (hlen : l2.length ≤ l.length) :
    ∀ x ∈ l2, x ∈ l := by
  have h1 : l.toFinset ⊆ l2.toFinset :=
    fun x hx => List.mem_toFinset.mpr (hsub x (List.mem_toFinset.mp hx))
  have h2 : l2.toFinset.card ≤ l.toFinset.card := by
    have h3 := l2.toFinset_card_le
    rw [List.toFinset_card_of_nodup hn]
    omega
  have h4 := Finset.eq_of_subset_of_card_le h1 h2
  intro x hx
  exact List.mem_toFinset.mp (h4 ▸ List.mem_toFinset.mpr hx)

theorem kahnLoop_inv {ts : List Task} (hnd : (taskNames ts).Nodup) :
    ∀ (fuel : Nat) (q res : List String) (deg : String → Int),
      KahnInv ts q res deg →
      ts.length ≤ fuel + res.length →
      ∃ deg2, KahnInv ts [] (kahnLoop (graphSucc ts) fuel q deg res) deg2 := by
  intro fuel
  induction fuel with
  | zero =>
    intro q res deg hinv hlen
    rcases q with _ | ⟨c, q⟩
    · exact ⟨deg, by simpa [kahnLoop] using hinv⟩
    · exfalso
      have hres_nodup : res.Nodup := (List.nodup_append.mp hinv.nodup).1
      have hres_sub : ∀ x ∈ res, x ∈ taskNames ts :=
        fun x hx => hinv.subset x (List.mem_append_left _ hx)
      have hlen2 : (taskNames ts).length = ts.length := by simp [taskNames]
      have hmem := mem_of_nodup_length_ge hres_nodup hres_sub (by omega)
      have hcnames : c ∈ taskNames ts := hinv.subset c (by simp)
      have hcres : c ∈ res := hmem c hcnames
      have hdisj := List.nodup_append.mp hinv.nodup
      exact hdisj.2.2 hcres (by simp)
  | succ fuel ih =>
    intro q res deg hinv hlen
    rcases q with _ | ⟨c, q⟩
    · exact ⟨deg, by simpa [kahnLoop] using hinv⟩
    · have hstep := kahnInv_step hnd hinv
      have hlen2 : ts.length ≤ fuel + (res ++ [c]).length := by
        rw [List.length_append]
        simp
        omega
      have hres := ih _ _ _ hstep hlen2
      simpa [kahnLoop] using hres

theorem kahnInv_init {ts : List Task} (hnd : (taskNames ts).Nodup) :
    KahnInv ts (seeds ts) [] (initDeg ts) := by
  refine ⟨?_, ?_, ?_, ?_, ?_⟩
  · simpa [seeds] using List.Nodup.filter _ hnd
  · intro n hn
    exact List.mem_of_mem_filter hn
  · intro n
    have h1 : (depsOf ts n).countP (fun u => !(decide (u ∈ ([] : List String)))) =
        (depsOf ts n).length := by
      simp
    rw [h1, initDeg]
  · intro n hn
    constructor
    · intro h
      rw [seeds, List.mem_filter] at h
      have hz : depsOf ts n = [] := by
        have h2 := h.2
        simp [initDeg] at h2
        exact h2
      refine ⟨by simp, ?_⟩
      intro d hd
      rw [hz] at hd
      exact absurd hd (List.not_mem_nil d)
    · rintro ⟨-, h2⟩
      rw [seeds, List.mem_filter]
      refine ⟨hn, ?_⟩
      have hz : depsOf ts n = [] := by
        cases hdeps : depsOf ts n with
        | nil => rfl
        | cons d ds =>
          exact absurd (h2 d (by rw [hdeps]; simp)) (List.not_mem_nil d)
      simp [initDeg, hz]
  · intro pre n post h
    exact absurd h.symm (List.append_ne_nil_of_right_ne_nil pre (List.cons_ne_nil n post))

theorem kahnResult_inv {ts : List Task} (hnd : (taskNames ts).Nodup) :
    ∃ deg2, KahnInv ts [] (kahnResult ts) deg2 := by
  have h := kahnLoop_inv hnd ts.length (seeds ts) [] (initDeg ts)
    (kahnInv_init hnd) (by simp)
  simpa [kahnResult] using h

theorem kahnResult_nodup {ts : List Task} (hnd : (taskNames ts).Nodup) :
    (kahnResult ts).Nodup := by
  obtain ⟨deg2, hinv⟩ := kahnResult_inv hnd
  simpa using hinv.nodup

theorem kahnResult_subset {ts : List Task} (hnd : (taskNames ts).Nodup) :
    ∀ x ∈ kahnResult ts, x ∈ taskNames ts := by
  obtain ⟨deg2, hinv⟩ := kahnResult_inv hnd
  intro x hx
  exact hinv.subset x (by simpa using hx)

theorem kahnResult_closed {ts : List Task} (hnd : (taskNames ts).Nodup) :
    PrefixClosed ts (kahnResult ts) := by
  obtain ⟨deg2, hinv⟩ := kahnResult_inv hnd
  exact hinv.closed

theorem kahnResult_complete {ts : List Task} (hnd : (taskNames ts).Nodup)
    (hres : Resolvable ts) (hacyc : WellFounded (depRel ts)) :
    ∀ n, n ∈ taskNames ts → n ∈ kahnResult ts := by
  obtain ⟨deg2, hinv⟩ := kahnResult_inv hnd
  intro n
  refine @WellFounded.induction String (depRel ts) hacyc
    (fun x => x ∈ taskNames ts → x ∈ kahnResult ts) n ?_
  intro x ihx hx
  by_contra hxres
  have hq := hinv.queue_iff x hx
  have hnot : ¬ (x ∉ kahnResult ts ∧ ∀ d ∈ depsOf ts x, d ∈ kahnResult ts) :=
    fun h => absurd (hq.mpr h) (List.not_mem_nil x)
  push_neg at hnot
  obtain ⟨d, hd, hdres⟩ := hnot hxres
  exact hdres (ihx d (depRel_of_mem_depsOf hd) (resolvable_depsOf hres hd))

theorem kahn_sound {ts : List Task} (hnd : (taskNames ts).Nodup)
    (hres : Resolvable ts) (hacyc : WellFounded (depRel ts)) :
    topologicalSort ts = some (kahnResult ts) ∧
      (kahnResult ts).Perm (taskNames ts) ∧ PrefixClosed ts (kahnResult ts) := by
  have hperm : (kahnResult ts).Perm (taskNames ts) := by
    rw [List.perm_ext_iff_of_nodup (kahnResult_nodup hnd) hnd]
    intro a
    exact ⟨fun h => kahnResult_subset hnd a h,
      fun h => kahnResult_complete hnd hres hacyc a h⟩
  refine ⟨?_, hperm, kahnResult_closed hnd⟩
  have hlen : (kahnResult ts).length = ts.length := by
    rw [hperm.length_eq]
    simp [taskNames]
  rw [topologicalSort, if_pos hlen]

theorem topologicalSort_eq_none {ts : List Task} (hnd : (taskNames ts).Nodup)
    {x : String} (hx : x ∈ taskNames ts) (hxr : x ∉ kahnResult ts) :
    topologicalSort ts = none := by
  have hne : ¬ ((kahnResult ts).length = ts.length) := by
    intro hlen
    have hlen2 : (taskNames ts).length ≤ (kahnResult ts).length := by
      simp [taskNames, hlen]
    have hmem := mem_of_nodup_length_ge (kahnResult_nodup hnd)
      (kahnResult_subset hnd) hlen2
    exact hxr (hmem x hx)
  rw [topologicalSort, if_neg hne]

/-! ### Failure cases of the sort: cycles and missing dependencies -/

theorem cycle_self_supporting {ts : List Task} {c : List String}
    (hcyc : IsCycle ts c) :
    ∀ n ∈ c, ∃ d, d ∈ c ∧ d ∈ depsOf ts n := by
  obtain ⟨hne, hchain, hclose⟩ := hcyc
  intro n hn
  rw [List.mem_iff_get] at hn
  obtain ⟨⟨i, hi⟩, rfl⟩ := hn
  cases i with
  | zero =>
    refine ⟨c.getLast?.getD "", ?_, ?_⟩
    · have hlast : c.getLast?.getD "" = c.getLast hne := by
        rw [List.getLast?_eq_getLast c hne]
        rfl
      rw [hlast]
      exact List.getLast_mem hne
    · have hhead : c.head?.getD "" = c.get ⟨0, hi⟩ := by
        cases c with
        | nil => simp at hi
        | cons a l => rfl
      rw [hhead] at hclose
      exact hclose
  | succ j =>
    refine ⟨c.get ⟨j, by omega⟩, List.get_mem c _ _, ?_⟩
    exact List.chain'_iff_get.mp hchain j (by omega)

theorem prefixClosed_no_self_supporting {ts : List Task} (S : String → Prop)
    (hS : ∀ n, S n → ∃ d, S d ∧ d ∈ depsOf ts n) :
    ∀ res : List String, PrefixClosed ts res → ∀ n ∈ res, ¬ S n := by
  intro res
  induction res using List.reverseRecOn with
  | nil =>
    intro _ n hn
    exact absurd hn (List.not_mem_nil n)
  | append_singleton l b ih =>
    intro hclosed n hn hSn
    have hclosed_l : PrefixClosed ts l := by
      intro pre m post heq d hd
      exact hclosed pre m (post ++ [b]) (by rw [heq]; simp) d hd
    rcases List.mem_append.mp hn with h1 | h2
    · exact ih hclosed_l n h1 hSn
    · have hb : n = b := by simpa using h2
      subst hb
      obtain ⟨d, hSd, hd⟩ := hS n hSn
      have hdl : d ∈ l := hclosed l n [] rfl d hd
      exact ih hclosed_l d hdl hSd

theorem cycle_not_sorted {ts : List Task} (hnd : (taskNames ts).Nodup)
    {c : List String} (hcyc : IsCycle ts c) :
    topologicalSort ts = none := by
  have hsup := cycle_self_supporting hcyc
  obtain ⟨x, hx⟩ : ∃ x, x ∈ c := List.exists_mem_of_ne_nil c hcyc.1
  obtain ⟨d, hdc, hdx⟩ := hsup x hx
  have hxnames : x ∈ taskNames ts := mem_depsOf_names hdx
  have hnot : x ∉ kahnResult ts := fun hxr =>
    prefixClosed_no_self_supporting (fun n => n ∈ c) hsup _
      (kahnResult_closed hnd) x hxr hx
  exact topologicalSort_eq_none hnd hxnames hnot

theorem missing_dep_not_sorted {ts : List Task} (hnd : (taskNames ts).Nodup)
    {t : Task} (ht : t ∈ ts) {d : String} (hd : d ∈ t.dependencies)
    (hdm : d ∉ taskNames ts) :
    topologicalSort ts = none := by
  have hdeps : depsOf ts t.name = t.dependencies := depsOf_of_mem hnd ht
  have htn : t.name ∈ taskNames ts := mem_taskNames.mpr ⟨t, ht, rfl⟩
  have hnot : t.name ∉ kahnResult ts := by
    intro hmem
    have hdr := prefixClosed_mem_deps (kahnResult_closed hnd) hmem
    rw [hdeps] at hdr
    exact hdm (kahnResult_subset hnd d (hdr d hd))
  exact topologicalSort_eq_none hnd htn hnot

/-! ### The runtime estimator -/

theorem foldl_max_shift (l : List Nat) : ∀ acc : Nat,
    l.foldl max acc = max acc (l.foldl max 0) := by
  induction l with
  | nil => intro acc; simp
  | cons a l ih =>
    intro acc
    rw [List.foldl_cons, List.foldl_cons, ih (max acc a), ih (max 0 a), Nat.zero_max,
      Nat.max_assoc]

theorem foldl_max_eq (l : List Nat) (acc : Nat) :
    l.foldl max acc = max acc (maxOver l) :=
  foldl_max_shift l acc

theorem maxOver_nil : maxOver [] = 0 := rfl

theorem maxOver_cons (a : Nat) (l : List Nat) : maxOver (a :: l) = max a (maxOver l) := by
  simp only [maxOver, List.foldl_cons]
  rw [foldl_max_shift l (max 0 a), Nat.zero_max]

theorem maxOver_perm {l l2 : List Nat} (h : l.Perm l2) : maxOver l = maxOver l2 := by
  induction h with
  | nil => rfl
  | cons a _ ih => rw [maxOver_cons, maxOver_cons, ih]
  | swap a b l =>
    rw [maxOver_cons, maxOver_cons, maxOver_cons, maxOver_cons,
      ← Nat.max_assoc, ← Nat.max_assoc, Nat.max_comm a b]
  | trans _ _ ih1 ih2 => rw [ih1, ih2]

theorem maxOver_map_le {α : Type} (l : List α) (f g : α → Nat)
    (h : ∀ x ∈ l, f x ≤ g x) : maxOver (l.map f) ≤ maxOver (l.map g) := by
  induction l with
  | nil => simp
  | cons a l ih =>
    rw [List.map_cons, List.map_cons, maxOver_cons, maxOver_cons]
    exact max_le_max (h a (by simp)) (ih (fun x hx => h x (by simp [hx])))

theorem maxOver_map_congr {α : Type} {l : List α} {f g : α → Nat}
    (h : ∀ x ∈ l, f x = g x) : maxOver (l.map f) = maxOver (l.map g) := by
  rw [List.map_congr_left h]

theorem depsMax_eq {ts : List Task} {st : String → Option Nat}
    {deps : List String}
    (h : ∀ d ∈ deps, (st d).isSome ∧ d ∈ taskNames ts) (hne : deps ≠ []) :
    depsMax ts st deps =
      some (maxOver (deps.map (fun d => (st d).getD 0 + durOf ts d))) := by
  induction deps with
  | nil => exact absurd rfl hne
  | cons d ds ih =>
    obtain ⟨hsome, hdn⟩ := h d (by simp)
    obtain ⟨v, hv⟩ := Option.isSome_iff_exists.mp hsome
    obtain ⟨t, ht⟩ := Option.isSome_iff_exists.mp (findTask_isSome.mpr hdn)
    have hdur : durOf ts d = t.duration := by simp [durOf, ht]
    cases ds with
    | nil =>
      simp only [depsMax, hv, ht, List.map_cons, List.map_nil, maxOver_cons, maxOver_nil]
      rw [hdur]
      simp [hv]
    | cons d2 ds2 =>
      have ih2 := ih (fun x hx => h x (by simp [hx])) (by simp)
      simp only [depsMax, hv, ht, ih2, List.map_cons, maxOver_cons]
      rw [hdur]
      simp [hv]

theorem computeStartTimes_go {ts : List Task} (hres : Resolvable ts) :
    ∀ (rest pre : List String) (st : String → Option Nat),
      (∀ n ∈ pre ++ rest, n ∈ taskNames ts) →
      (pre ++ rest).Nodup →
      (∀ pre2 n post2, pre ++ rest = pre2 ++ n :: post2 →
        ∀ d ∈ depsOf ts n, d ∈ pre2) →
      (∀ n, (st n).isSome ↔ n ∈ pre) →
      (∀ n ∈ pre, FixAt ts st n) →
      ∃ st2, computeStartTimes ts rest st = some st2 ∧
        (∀ n, (st2 n).isSome ↔ n ∈ pre ++ rest) ∧
        (∀ n ∈ pre, st2 n = st n) ∧
        (∀ n ∈ pre ++ rest, FixAt ts st2 n) := by
  intro rest
  induction rest with
  | nil =>
    intro pre st hsub hnodup hclosed hdom hfix
    refine ⟨st, rfl, ?_, fun n _ => rfl, ?_⟩
    · simpa using hdom
    · simpa using hfix
  | cons n rest ih =>
    intro pre st hsub hnodup hclosed hdom hfix
    have hnn : n ∈ taskNames ts := hsub n (by simp)
    obtain ⟨t, ht⟩ := Option.isSome_iff_exists.mp (findTask_isSome.mpr hnn)
    have hdeps : depsOf ts n = t.dependencies := by simp [depsOf, ht]
    have hdpre : ∀ d ∈ depsOf ts n, d ∈ pre := hclosed pre n rest rfl
    have hnpre : n ∉ pre := by
      have h1 := hnodup
      rw [List.nodup_append] at h1
      exact fun hmem => h1.2.2 hmem (by simp)
    have hdep_info : ∀ d ∈ t.dependencies, (st d).isSome ∧ d ∈ taskNames ts := by
      intro d hd
      rw [← hdeps] at hd
      exact ⟨(hdom d).mpr (hdpre d hd), resolvable_depsOf hres hd⟩
    set v := maxOver ((depsOf ts n).map (fun d => (st d).getD 0 + durOf ts d)) with hvdef
    have hstep : computeStartTimes ts (n :: rest) st =
        computeStartTimes ts rest (fun m => if m = n then some v else st m) := by
      by_cases hemp : t.dependencies.isEmpty
      · have hnil : t.dependencies = [] := by simpa using hemp
        have hv0 : v = 0 := by rw [hvdef, hdeps, hnil]; rfl
        simp only [computeStartTimes, ht, hemp, if_true, hv0]
      · have hne : t.dependencies ≠ [] := by simpa using hemp
        have hemp2 : t.dependencies.isEmpty = false := by simpa using hemp
        have hmax := depsMax_eq hdep_info hne
        have hveq : v = maxOver (t.dependencies.map
            (fun d => (st d).getD 0 + durOf ts d)) := by
          rw [hvdef, hdeps]
        simp only [computeStartTimes, ht, hemp2, Bool.false_eq_true, if_false, hmax,
          ← hveq]
    have hsub2 : ∀ m ∈ (pre ++ [n]) ++ rest, m ∈ taskNames ts := by
      intro m hm
      apply hsub m
      simpa using hm
    have hnodup2 : ((pre ++ [n]) ++ rest).Nodup := by
      have : (pre ++ [n]) ++ rest = pre ++ n :: rest := by simp
      rw [this]
      exact hnodup
    have hclosed2 : ∀ pre2 m post2, (pre ++ [n]) ++ rest = pre2 ++ m :: post2 →
        ∀ d ∈ depsOf ts m, d ∈ pre2 := by
      intro pre2 m post2 heq
      apply hclosed pre2 m post2
      rw [← heq]
      simp
    have hdom2 : ∀ m, ((fun m => if m = n then some v else st m) m).isSome ↔
        m ∈ pre ++ [n] := by
      intro m
      by_cases hm : m = n
      · subst hm
        simp
      · simp only [if_neg hm]
        rw [hdom m]
        simp [hm]
    have hfix2 : ∀ m ∈ pre ++ [n], FixAt ts (fun m => if m = n then some v else st m) m := by
      intro m hm
      have hmdeps_pre : ∀ d ∈ depsOf ts m, d ∈ pre := by
        rcases List.mem_append.mp hm with h1 | h2
        · rcases List.append_of_mem h1 with ⟨p1, p2, rfl⟩
          intro d hd
          have hp1 := hclosed p1 m (p2 ++ n :: rest) (by simp) d hd
          exact List.mem_append_left (m :: p2) hp1
        · have : m = n := by simpa using h2
          subst this
          exact hdpre
      have hcongr : ∀ d ∈ depsOf ts m,
          ((fun m => if m = n then some v else st m) d).getD 0 + durOf ts d =
            (st d).getD 0 + durOf ts d := by
        intro d hd
        have hdn2 : d ≠ n := fun he => hnpre (he ▸ hmdeps_pre d hd)
        simp [hdn2]
      rcases List.mem_append.mp hm with h1 | h2
      · have hmn : m ≠ n := fun he => hnpre (he ▸ h1)
        rw [FixAt]
        simp only [if_neg hmn]
        rw [maxOver_map_congr hcongr]
        exact hfix m h1
      · have hmn2 : m = n := by simpa using h2
        rw [FixAt]
        have hcong2 : maxOver ((depsOf ts m).map
              (fun d => (if d = n then some v else st d).getD 0 + durOf ts d)) =
            maxOver ((depsOf ts m).map (fun d => (st d).getD 0 + durOf ts d)) := by
          apply maxOver_map_congr
          intro d hd
          have hdn2 : d ≠ n := fun he => hnpre (he ▸ hmdeps_pre d hd)
          simp [hdn2]
        show (if m = n then some v else st m) = _
        rw [if_pos hmn2, hcong2, hmn2, ← hvdef]
    obtain ⟨st2, hcomp, hdom3, hstable, hfix3⟩ :=
      ih (pre ++ [n]) _ hsub2 hnodup2 hclosed2 hdom2 hfix2
    refine ⟨st2, by rw [hstep, hcomp], ?_, ?_, ?_⟩
    · intro m
      rw [hdom3 m]
      constructor
      · intro h
        simpa using h
      · intro h
        simpa using h
    · intro m hmpre
      have h1 : st2 m = (fun m => if m = n then some v else st m) m :=
        hstable m (List.mem_append_left _ hmpre)
      have hmn : m ≠ n := fun he => hnpre (he ▸ hmpre)
      rw [h1]
      simp [hmn]
    · intro m hm
      apply hfix3 m
      simpa using hm

theorem computeStartTimes_spec {ts : List Task} (hnd : (taskNames ts).Nodup)
    (hres : Resolvable ts) (hacyc : WellFounded (depRel ts)) :
    ∃ st2, computeStartTimes ts (kahnResult ts) (fun _ => none) = some st2 ∧
      (∀ n, (st2 n).isSome ↔ n ∈ taskNames ts) ∧
      (∀ n ∈ taskNames ts, FixAt ts st2 n) := by
  obtain ⟨-, hperm, hclosed⟩ := kahn_sound hnd hres hacyc
  have h := computeStartTimes_go hres (kahnResult ts) [] (fun _ => none)
    (by intro n hn; exact kahnResult_subset hnd n (by simpa using hn))
    (by simpa using kahnResult_nodup hnd)
    (by
      intro pre2 m post2 heq d hd
      exact hclosed pre2 m post2 (by simpa using heq) d hd)
    (by simp)
    (by simp)
  obtain ⟨st2, hcomp, hdom, -, hfix⟩ := h
  refine ⟨st2, hcomp, ?_, ?_⟩
  · intro m
    rw [hdom m]
    constructor
    · intro hm
      exact hperm.mem_iff.mp (by simpa using hm)
    · intro hm
      simpa using hperm.mem_iff.mpr hm
  · intro m hm
    exact hfix m (by simpa using hperm.mem_iff.mpr hm)

theorem totalRuntime_spec {ts : List Task} {st : String → Option Nat} :
    ∀ (order : List String) (acc : Nat),
      (∀ n ∈ order, (st n).isSome ∧ n ∈ taskNames ts) →
      totalRuntime ts st acc order =
        some (List.foldl max acc (order.map (fun n => (st n).getD 0 + durOf ts n))) := by
  intro order
  induction order with
  | nil => intro acc _; rfl
  | cons n rest ih =>
    intro acc h
    obtain ⟨h1, h2⟩ := h n (by simp)
    obtain ⟨v, hv⟩ := Option.isSome_iff_exists.mp h1
    obtain ⟨t, ht⟩ := Option.isSome_iff_exists.mp (findTask_isSome.mpr h2)
    simp only [totalRuntime, hv, ht, List.map_cons, List.foldl_cons]
    rw [ih _ (fun m hm => h m (by simp [hm]))]
    have hdur : durOf ts n = t.duration := by simp [durOf, ht]
    simp [hdur]

/-- On a valid collection the estimator succeeds: it computes start times
satisfying the critical-path fixpoint equation and returns the maximum of
start time plus duration over all tasks (caching the computed order). -/
theorem calc_spec {ts : List Task} (hnd : (taskNames ts).Nodup)
    (hres : Resolvable ts) (hacyc : WellFounded (depRel ts)) :
    ∃ stv : String → Nat,
      (∀ n ∈ taskNames ts, stv n =
        maxOver ((depsOf ts n).map (fun d => stv d + durOf ts d))) ∧
      calcExpectedRuntime ⟨ts, []⟩ =
        some (maxOver ((taskNames ts).map (fun n => stv n + durOf ts n)),
          ⟨ts, kahnResult ts⟩) := by
  obtain ⟨hsort, hperm, hclosed⟩ := kahn_sound hnd hres hacyc
  obtain ⟨st2, hcomp, hdom, hfix⟩ := computeStartTimes_spec hnd hres hacyc
  refine ⟨fun n => (st2 n).getD 0, ?_, ?_⟩
  · intro n hn
    have h := hfix n hn
    rw [FixAt] at h
    simp only [h, Option.getD_some]
  · have htotal := totalRuntime_spec (kahnResult ts) 0
      (fun n hn => ⟨(hdom n).mpr (kahnResult_subset hnd n hn),
        kahnResult_subset hnd n hn⟩)
    rw [calcExpectedRuntime]
    simp only [List.isEmpty_nil, if_true, hsort, hcomp, htotal]
    have hfold : List.foldl max 0 ((kahnResult ts).map
        (fun n => (st2 n).getD 0 + durOf ts n)) =
        maxOver ((kahnResult ts).map (fun n => (st2 n).getD 0 + durOf ts n)) := rfl
    rw [hfold, maxOver_perm (hperm.map (fun n => (st2 n).getD 0 + durOf ts n))]

/-- The critical-path fixpoint is unique on collections with the same
names, dependency multisets and durations (acyclicity of the first). -/
theorem fix_unique {t1 t2 : List Task} {stv1 stv2 : String → Nat}
    (hacyc : WellFounded (depRel t1)) (hres1 : Resolvable t1)
    (hnames : ∀ n, n ∈ taskNames t1 ↔ n ∈ taskNames t2)
    (hdeps : ∀ n ∈ taskNames t1, (depsOf t1 n).Perm (depsOf t2 n))
    (hdur : ∀ n ∈ taskNames t1, durOf t1 n = durOf t2 n)
    (h1 : ∀ n ∈ taskNames t1, stv1 n =
      maxOver ((depsOf t1 n).map (fun d => stv1 d + durOf t1 d)))
    (h2 : ∀ n ∈ taskNames t2, stv2 n =
      maxOver ((depsOf t2 n).map (fun d => stv2 d + durOf t2 d))) :
    ∀ n ∈ taskNames t1, stv1 n = stv2 n := by
  intro n
  refine @WellFounded.induction String (depRel t1) hacyc
    (fun x => x ∈ taskNames t1 → stv1 x = stv2 x) n ?_
  intro x ihx hx
  rw [h1 x hx, h2 x ((hnames x).mp hx)]
  have hstep1 : maxOver ((depsOf t1 x).map (fun d => stv1 d + durOf t1 d)) =
      maxOver ((depsOf t1 x).map (fun d => stv2 d + durOf t2 d)) := by
    apply maxOver_map_congr
    intro d hd
    have hdn : d ∈ taskNames t1 := resolvable_depsOf hres1 hd
    rw [ihx d (depRel_of_mem_depsOf hd) hdn, hdur d hdn]
  rw [hstep1]
  exact maxOver_perm ((hdeps x hx).map (fun d => stv2 d + durOf t2 d))

/-- The critical-path fixpoint is monotone in the durations (same names
and dependencies, pointwise larger durations). -/
theorem fix_mono {t1 t2 : List Task} {stv1 stv2 : String → Nat}
    (hacyc : WellFounded (depRel t1)) (hres1 : Resolvable t1)
    (hnames : taskNames t1 = taskNames t2)
    (hdeps : ∀ n, depsOf t1 n = depsOf t2 n)
    (hdur : ∀ n ∈ taskNames t1, durOf t1 n ≤ durOf t2 n)
    (h1 : ∀ n ∈ taskNames t1, stv1 n =
      maxOver ((depsOf t1 n).map (fun d => stv1 d + durOf t1 d)))
    (h2 : ∀ n ∈ taskNames t2, stv2 n =
      maxOver ((depsOf t2 n).map (fun d => stv2 d + durOf t2 d))) :
    ∀ n ∈ taskNames t1, stv1 n ≤ stv2 n := by
  intro n
  refine @WellFounded.induction String (depRel t1) hacyc
    (fun x => x ∈ taskNames t1 → stv1 x ≤ stv2 x) n ?_
  intro x ihx hx
  rw [h1 x hx, h2 x (hnames ▸ hx), ← hdeps x]
  apply maxOver_map_le
  intro d hd
  have hdn : d ∈ taskNames t1 := resolvable_depsOf hres1 hd
  exact Nat.add_le_add (ihx d (depRel_of_mem_depsOf hd) hdn) (hdur d hdn)

/-! ### `setDuration` changes no structure used by the sort -/

theorem taskNames_setDuration (ts : List Task) (x : String) (d : Nat) :
    taskNames (setDuration ts x d) = taskNames ts := by
  rw [taskNames, setDuration, List.map_map, taskNames]
  apply List.map_congr_left
  intro t _
  by_cases ht : t.name = x <;> simp [ht]

theorem findTask_setDuration (ts : List Task) (x : String) (d : Nat) (n : String) :
    findTask (setDuration ts x d) n =
      match findTask ts n with
      | some t => some (if t.name = x then ⟨t.name, d, t.dependencies⟩ else t)
      | none => none := by
  induction ts with
  | nil => rfl
  | cons u us ih =>
    have hname : (if u.name = x then (⟨u.name, d, u.dependencies⟩ : Task) else u).name
        = u.name := by
      by_cases hux : u.name = x <;> simp [hux]
    simp only [setDuration, List.map_cons]
    by_cases hun : u.name = n
    · have hc1 : decide ((if u.name = x then (⟨u.name, d, u.dependencies⟩ : Task)
          else u).name = n) = true := by
        rw [hname]
        exact decide_eq_true hun
      have hc2 : decide (u.name = n) = true := decide_eq_true hun
      simp only [findTask, List.find?_cons, hc1, hc2]
    · have hc1 : decide ((if u.name = x then (⟨u.name, d, u.dependencies⟩ : Task)
          else u).name = n) = false := by
        rw [hname]
        exact decide_eq_false hun
      have hc2 : decide (u.name = n) = false := decide_eq_false hun
      simp only [findTask, List.find?_cons, hc1, hc2]
      exact ih

theorem depsOf_setDuration (ts : List Task) (x : String) (d : Nat) (n : String) :
    depsOf (setDuration ts x d) n = depsOf ts n := by
  rw [depsOf, depsOf, findTask_setDuration]
  cases findTask ts n with
  | none => rfl
  | some t => by_cases ht : t.name = x <;> simp [ht]

theorem durOf_setDuration_self {ts : List Task} {x : String} {d : Nat}
    (hx : x ∈ taskNames ts) : durOf (setDuration ts x d) x = d := by
  rw [durOf, findTask_setDuration]
  obtain ⟨t, ht⟩ := Option.isSome_iff_exists.mp (findTask_isSome.mpr hx)
  rw [ht]
  have hname : t.name = x := (findTask_mem ht).2
  simp [hname]

theorem durOf_le_setDuration {ts : List Task} {x : String} {d : Nat}
    (hd : durOf ts x ≤ d) (n : String) :
    durOf ts n ≤ durOf (setDuration ts x d) n := by
  rw [durOf, durOf, findTask_setDuration]
  cases hf : findTask ts n with
  | none => simp
  | some t =>
    by_cases ht : t.name = x
    · have hn : n = x := by rw [← (findTask_mem hf).2, ht]
      subst hn
      have hdt : durOf ts n = t.duration := by rw [durOf, hf]
      simp only [ht, if_pos]
      rw [← hdt]
      simpa using hd
    · simp [ht]

theorem graphSucc_setDuration (ts : List Task) (x : String) (d : Nat) :
    graphSucc (setDuration ts x d) = graphSucc ts := by
  funext c
  induction ts with
  | nil => rfl
  | cons u us ih =>
    have hh : (((if u.name = x then (⟨u.name, d, u.dependencies⟩ : Task) else u)
          |>.dependencies.filter (fun w => decide (w = c))).map
          (fun _ => (if u.name = x then (⟨u.name, d, u.dependencies⟩ : Task) else u).name))
        = ((u.dependencies.filter (fun w => decide (w = c))).map (fun _ => u.name)) := by
      by_cases hux : u.name = x <;> simp [hux]
    simp only [graphSucc, setDuration, List.map_cons, List.flatMap_cons]
    rw [hh]
    congr 1

theorem depEdges_setDuration (ts : List Task) (x : String) (d : Nat) :
    depEdges (setDuration ts x d) = depEdges ts := by
  induction ts with
  | nil => rfl
  | cons u us ih =>
    have hh : ((if u.name = x then (⟨u.name, d, u.dependencies⟩ : Task) else u)
          |>.dependencies.map (fun w => (w,
            (if u.name = x then (⟨u.name, d, u.dependencies⟩ : Task) else u).name)))
        = u.dependencies.map (fun w => (w, u.name)) := by
      by_cases hux : u.name = x <;> simp [hux]
    simp only [depEdges, setDuration, List.map_cons, List.flatMap_cons]
    rw [hh]
    congr 1

theorem depRel_setDuration (ts : List Task) (x : String) (d : Nat) :
    depRel (setDuration ts x d) = depRel ts := by
  funext a b
  rw [depRel, depRel, depEdges_setDuration]

theorem initDeg_setDuration (ts : List Task) (x : String) (d : Nat) :
    initDeg (setDuration ts x d) = initDeg ts := by
  funext n
  rw [initDeg, initDeg, depsOf_setDuration]

theorem seeds_setDuration (ts : List Task) (x : String) (d : Nat) :
    seeds (setDuration ts x d) = seeds ts := by
  rw [seeds, seeds, taskNames_setDuration, initDeg_setDuration]

theorem kahnResult_setDuration (ts : List Task) (x : String) (d : Nat) :
    kahnResult (setDuration ts x d) = kahnResult ts := by
  rw [kahnResult, kahnResult, graphSucc_setDuration, initDeg_setDuration,
    seeds_setDuration, setDuration, List.length_map]

theorem resolvable_setDuration {ts : List Task} (x : String) (d : Nat)
    (hres : Resolvable ts) : Resolvable (setDuration ts x d) := by
  intro t ht dd hd
  rw [taskNames_setDuration]
  rcases List.mem_map.mp ht with ⟨u, hu, rfl⟩
  have hdd : dd ∈ u.dependencies := by
    by_cases hux : u.name = x <;> simpa [hux] using hd
  exact hres u hu dd hdd

/-! ### Safety of the execution engine -/

theorem execInv_init (ts : List Task) : ExecInv ts initExecState := by
  refine ⟨?_, ?_, ?_, ?_, ?_, ?_⟩
  · intro n; simp [initExecState]
  · intro n; simp [initExecState]
  · simp [initExecState]
  · simp [initExecState]
  · intro n h; simp [initExecState] at h
  · intro k n h
    simp [initExecState] at h

theorem take_append_singleton {α : Type} (l : List α) (e : α) (k : Nat) :
    (l ++ [e]).take k = l.take k ∨ ((l ++ [e]).take k = l ++ [e] ∧ l.length < k) := by
  by_cases hk : k ≤ l.length
  · left
    rw [List.take_append_eq_append_take]
    have hz : k - l.length = 0 := by omega
    rw [hz]
    simp
  · right
    refine ⟨?_, by omega⟩
    apply List.take_of_length_le
    simp
    omega

theorem execInv_step {ts : List Task} {σ σ2 : ExecState}
    (hstep : execStep ts σ σ2) (hinv : ExecInv ts σ) : ExecInv ts σ2 := by
  obtain ⟨hsc, hcc, han, hcn, hdisj, hord⟩ := hinv
  cases hstep with
  | startTask n hmem hna hnc hdeps =>
    refine ⟨?_, ?_, ?_, ?_, ?_, ?_⟩
    · intro m
      simp only [List.count_append]
      by_cases hm : m = n
      · subst hm
        rw [hsc m]
        simp [hna, hnc]
      · rw [hsc m]
        have h0 : ([ExecEvent.start n].count (ExecEvent.start m)) = 0 := by
          rw [List.count_eq_zero]
          simp [hm]
        rw [h0]
        have hmm : (m ∈ σ.active ++ [n] ∨ m ∈ σ.completed) ↔
            (m ∈ σ.active ∨ m ∈ σ.completed) := by
          simp [hm]
        by_cases hcase : m ∈ σ.active ∨ m ∈ σ.completed
        · rw [if_pos hcase, if_pos (hmm.mpr hcase)]
        · rw [if_neg hcase, if_neg (fun hy => hcase (hmm.mp hy))]
    · intro m
      simp only [List.count_append]
      rw [hcc m]
      simp
    · simp only []
      rw [List.nodup_append]
      exact ⟨han, List.nodup_singleton n, by intro a ha ha2; simp at ha2; exact hna (ha2 ▸ ha)⟩
    · exact hcn
    · intro m hm
      rcases List.mem_append.mp hm with h1 | h2
      · exact hdisj m h1
      · have : m = n := by simpa using h2
        exact this ▸ hnc
    · intro k m hmk d hd
      rcases take_append_singleton σ.trace (ExecEvent.start n) k with h1 | ⟨h2, hlen⟩
      · rw [h1] at hmk ⊢
        exact hord k m hmk d hd
      · rw [h2] at hmk ⊢
        rcases List.mem_append.mp hmk with h3 | h4
        · have := hord σ.trace.length m (by
            rw [List.take_of_length_le (le_refl _)]
            exact h3) d hd
          rw [List.take_of_length_le (le_refl _)] at this
          exact List.mem_append_left _ this
        · have hmn : m = n := by simpa using h4
          subst hmn
          have hdcomp : d ∈ σ.completed := hdeps d hd
          have hcount := hcc d
          rw [if_pos hdcomp] at hcount
          have : ExecEvent.complete d ∈ σ.trace := by
            rw [← List.count_pos_iff]
            omega
          exact List.mem_append_left _ this
  | completeTask n ha =>
    refine ⟨?_, ?_, ?_, ?_, ?_, ?_⟩
    · intro m
      simp only [List.count_append]
      have h0 : ([ExecEvent.complete n].count (ExecEvent.start m)) = 0 := by simp
      rw [h0, hsc m]
      have hmm : (m ∈ σ.active.erase n ∨ m ∈ σ.completed ++ [n]) ↔
          (m ∈ σ.active ∨ m ∈ σ.completed) := by
        constructor
        · rintro (h1 | h2)
          · exact Or.inl (List.mem_of_mem_erase h1)
          · rcases List.mem_append.mp h2 with h3 | h4
            · exact Or.inr h3
            · exact Or.inl ((by simpa using h4 : m = n) ▸ ha)
        · rintro (h1 | h2)
          · by_cases hm : m = n
            · exact Or.inr (List.mem_append_right _ (by simp [hm]))
            · exact Or.inl (List.mem_erase_of_ne hm |>.mpr h1)
          · exact Or.inr (List.mem_append_left _ h2)
      by_cases hcase : m ∈ σ.active ∨ m ∈ σ.completed
      · rw [if_pos hcase, if_pos (hmm.mpr hcase)]
      · rw [if_neg hcase, if_neg (fun hy => hcase (hmm.mp hy))]
    · intro m
      simp only [List.count_append]
      rw [hcc m]
      by_cases hm : m = n
      · subst hm
        have hnc2 : m ∉ σ.completed := hdisj m ha
        simp [hnc2]
      · have h0 : ([ExecEvent.complete n].count (ExecEvent.complete m)) = 0 := by
          rw [List.count_eq_zero]
          simp [hm]
        rw [h0]
        have hmm : (m ∈ σ.completed ++ [n]) ↔ m ∈ σ.completed := by simp [hm]
        by_cases hcase : m ∈ σ.completed
        · rw [if_pos hcase, if_pos (hmm.mpr hcase)]
        · rw [if_neg hcase, if_neg (fun hy => hcase (hmm.mp hy))]
    · exact han.erase n
    · rw [List.nodup_append]
      exact ⟨hcn, List.nodup_singleton n, by
        intro a hac ha2
        have : a = n := by simpa using ha2
        exact hdisj a (this ▸ ha) hac⟩
    · intro m hm hmc
      have hm2 : m ∈ σ.active := List.mem_of_mem_erase hm
      rcases List.mem_append.mp hmc with h1 | h2
      · exact hdisj m hm2 h1
      · have hmn : m = n := by simpa using h2
        subst hmn
        exact (List.Nodup.not_mem_erase han) hm
    · intro k m hmk d hd
      rcases take_append_singleton σ.trace (ExecEvent.complete n) k with h1 | ⟨h2, hlen⟩
      · rw [h1] at hmk ⊢
        exact hord k m hmk d hd
      · rw [h2] at hmk ⊢
        rcases List.mem_append.mp hmk with h3 | h4
        · have := hord σ.trace.length m (by
            rw [List.take_of_length_le (le_refl _)]
            exact h3) d hd
          rw [List.take_of_length_le (le_refl _)] at this
          exact List.mem_append_left _ this
        · simp at h4

/-- Every reachable state of the execution engine satisfies the
invariant. -/
theorem execInv_reachable {ts : List Task} {σ : ExecState}
    (h : execReachable ts σ) : ExecInv ts σ := by
  induction h with
  | refl => exact execInv_init ts
  | tail hsteps hstep ih => exact execInv_step hstep ih


/-- A rank function increasing along every dependency edge witnesses
acyclicity (well-foundedness of the dependency relation). -/
theorem wf_of_rank (ts : List Task) (rank : String → Nat)
    (h : ∀ p ∈ depEdges ts, rank p.1 < rank p.2) :
    WellFounded (depRel ts) := by
  have hsub : Subrelation (depRel ts) (InvImage (· < ·) rank) := by
    intro a b hab
    exact h (a, b) hab
  exact Subrelation.wf hsub (InvImage.wf rank (Nat.lt_wfRel.wf))

/-- Claim C1: on an acyclic, fully-resolvable collection with distinct
names, `_topological_sort` succeeds and returns a permutation of all task
names in which every task's dependencies appear strictly earlier than the
task itself. -/
theorem C1_sort_correct (ts : List Task)
    (hnd : (taskNames ts).Nodup) (hres : Resolvable ts)
    (hacyc : WellFounded (depRel ts)) :
    ∃ order, topologicalSort ts = some order ∧ order.Perm (taskNames ts) ∧
      ∀ pre n post, order = pre ++ n :: post → ∀ d ∈ depsOf ts n, d ∈ pre := by
  obtain ⟨hs, hp, hc⟩ := kahn_sound hnd hres hacyc
  exact ⟨kahnResult ts, hs, hp, hc⟩

/-- Witness for C1 at the specification's Scenario 1 collection. -/
theorem C1_sort_correct_witness :
    (taskNames exTasks).Nodup ∧ Resolvable exTasks ∧
      (∃ order, topologicalSort exTasks = some order ∧
        order.Perm (taskNames exTasks) ∧
        ∀ pre n post, order = pre ++ n :: post →
          ∀ d ∈ depsOf exTasks n, d ∈ pre) := by
  have hnd : (taskNames exTasks).Nodup := by decide
  have hres : Resolvable exTasks := by unfold Resolvable; decide
  have hacyc : WellFounded (depRel exTasks) :=
    wf_of_rank exTasks exRank (by decide)
  exact ⟨hnd, hres, C1_sort_correct exTasks hnd hres hacyc⟩

/-- Claim C2: on a valid collection the estimator assigns each task a
start time satisfying the critical-path equation (maximum over its
dependencies of dependency start plus dependency duration; the maximum of
the empty list being 0 for tasks without dependencies) and returns the
maximum over all tasks of start time plus duration; on Scenario 1 it
returns 7. -/
theorem C2_expected_runtime (ts : List Task)
    (hnd : (taskNames ts).Nodup) (hres : Resolvable ts)
    (hacyc : WellFounded (depRel ts)) :
    (∃ stv : String → Nat,
      (∀ n ∈ taskNames ts, stv n =
        maxOver ((depsOf ts n).map (fun d => stv d + durOf ts d))) ∧
      calcExpectedRuntime ⟨ts, []⟩ =
        some (maxOver ((taskNames ts).map (fun n => stv n + durOf ts n)),
          ⟨ts, kahnResult ts⟩)) ∧
    (calcExpectedRuntime ⟨exTasks, []⟩).map Prod.fst = some 7 :=
  ⟨calc_spec hnd hres hacyc, by decide⟩

/-- Witness for C2 at the Scenario 1 collection. -/
theorem C2_expected_runtime_witness :
    (taskNames exTasks).Nodup ∧ Resolvable exTasks ∧
      ((∃ stv : String → Nat,
        (∀ n ∈ taskNames exTasks, stv n =
          maxOver ((depsOf exTasks n).map (fun d => stv d + durOf exTasks d))) ∧
        calcExpectedRuntime ⟨exTasks, []⟩ =
          some (maxOver ((taskNames exTasks).map
            (fun n => stv n + durOf exTasks n)), ⟨exTasks, kahnResult exTasks⟩)) ∧
      (calcExpectedRuntime ⟨exTasks, []⟩).map Prod.fst = some 7) := by
  have hnd : (taskNames exTasks).Nodup := by decide
  have hres : Resolvable exTasks := by unfold Resolvable; decide
  have hacyc : WellFounded (depRel exTasks) :=
    wf_of_rank exTasks exRank (by decide)
  exact ⟨hnd, hres, C2_expected_runtime exTasks hnd hres hacyc⟩

/-- Claim C3: a cyclic (fully-resolvable) collection makes the sort fail
with the cycle error; validation reports the cycle and leaves the
scheduler state (in particular the cached execution order) unchanged. -/
theorem C3_cycle_error (s : Scheduler) (hnd : (taskNames s.tasks).Nodup)
    (hres : Resolvable s.tasks) (c : List String) (hcyc : IsCycle s.tasks c) :
    topologicalSort s.tasks = none ∧
      validateTasks s = (false, [SchedError.cycle], s) := by
  have hsort := cycle_not_sorted hnd hcyc
  refine ⟨hsort, ?_⟩
  have herr : missingDepErrors s.tasks = [] :=
    resolvable_iff_missingDepErrors.mp hres
  simp only [validateTasks, herr, List.isEmpty_nil, if_true, hsort]

/-- Witness for C3 at the two-cycle `A ↔ B`. -/
theorem C3_cycle_error_witness :
    (taskNames cycTasks).Nodup ∧ Resolvable cycTasks ∧
      IsCycle cycTasks ["A", "B"] ∧
      (topologicalSort cycTasks = none ∧
        validateTasks ⟨cycTasks, []⟩ =
          (false, [SchedError.cycle], ⟨cycTasks, []⟩)) := by
  have hnd : (taskNames cycTasks).Nodup := by decide
  have hres : Resolvable cycTasks := by unfold Resolvable; decide
  have hcyc : IsCycle cycTasks ["A", "B"] := by
    refine ⟨by decide, ?_, by decide⟩
    rw [List.chain'_cons]
    refine ⟨by decide, by simp⟩
  exact ⟨hnd, hres, hcyc, C3_cycle_error ⟨cycTasks, []⟩ hnd hres ["A", "B"] hcyc⟩

theorem mem_missingDepErrors {ts : List Task} {t : Task} (ht : t ∈ ts)
    {d : String} (hd : d ∈ t.dependencies) (hdm : d ∉ taskNames ts) :
    SchedError.missingDep t.name d ∈ missingDepErrors ts := by
  rw [missingDepErrors]
  exact List.mem_flatMap.mpr ⟨t, ht,
    List.mem_map.mpr ⟨d, List.mem_filter.mpr ⟨hd, by simp [hdm]⟩, rfl⟩⟩

theorem count_missingDepErrors {ts : List Task} (hnd : (taskNames ts).Nodup)
    {t : Task} (ht : t ∈ ts) (d : String) (hdm : d ∉ taskNames ts) :
    (missingDepErrors ts).count (SchedError.missingDep t.name d) =
      t.dependencies.count d := by
  have hmain : ∀ ms : List Task, t ∈ ms → ((ms.map (fun u => u.name)).Nodup) →
      ((ms.flatMap (fun u => ((u.dependencies.filter
          (fun w => !(decide (w ∈ taskNames ts)))).map
          (fun w => SchedError.missingDep u.name w)))).count
        (SchedError.missingDep t.name d)) = t.dependencies.count d := by
    intro ms
    induction ms with
    | nil => intro h; cases h
    | cons u us ih =>
      intro hmem hnodup
      simp only [List.map_cons, List.nodup_cons] at hnodup
      rw [List.flatMap_cons, List.count_append]
      rcases List.mem_cons.mp hmem with rfl | hmem2
      · have hseg : (((t.dependencies.filter
            (fun w => !(decide (w ∈ taskNames ts)))).map
            (fun w => SchedError.missingDep t.name w)).count
            (SchedError.missingDep t.name d)) = t.dependencies.count d := by
          rw [List.count_map_of_injective _ _
            (fun a b hab => by simpa using hab)]
          exact List.count_filter (by simp [hdm])
        rw [hseg]
        have h0 : ((us.flatMap (fun u2 => ((u2.dependencies.filter
            (fun w => !(decide (w ∈ taskNames ts)))).map
            (fun w => SchedError.missingDep u2.name w)))).count
            (SchedError.missingDep t.name d)) = 0 := by
          rw [List.count_eq_zero]
          intro hcmem
          rcases List.mem_flatMap.mp hcmem with ⟨u2, hu2, hmm⟩
          rcases List.mem_map.mp hmm with ⟨w, -, heq⟩
          have : u2.name = t.name := by
            have h1 := congrArg (fun e => match e with
              | SchedError.missingDep a _ => a
              | SchedError.cycle => "") heq
            simpa using h1
          exact hnodup.1 (this ▸ List.mem_map.mpr ⟨u2, hu2, rfl⟩)
        rw [h0]
        omega
      · have hune : u.name ≠ t.name := by
          intro he
          exact hnodup.1 (he ▸ List.mem_map.mpr ⟨t, hmem2, rfl⟩)
        have h0 : (((u.dependencies.filter
            (fun w => !(decide (w ∈ taskNames ts)))).map
            (fun w => SchedError.missingDep u.name w)).count
            (SchedError.missingDep t.name d)) = 0 := by
          rw [List.count_eq_zero]
          intro hcmem
          rcases List.mem_map.mp hcmem with ⟨w, -, heq⟩
          have : u.name = t.name := by
            have h1 := congrArg (fun e => match e with
              | SchedError.missingDep a _ => a
              | SchedError.cycle => "") heq
            simpa using h1
          exact hune this
        rw [h0, ih hmem2 hnodup.2]
        omega
  have := hmain ts ht (by simpa [taskNames] using hnd)
  simpa [missingDepErrors] using this

/-- Claim C4: when some tasks reference names absent from the collection,
validation fails and the error list contains every (task, missing
dependency) violation — a distinct `missingDep` entry per occurrence, not
just the first — each naming the offending task and the missing name. -/
theorem C4_missing_reported (s : Scheduler) (hnd : (taskNames s.tasks).Nodup)
    (hmiss : ∃ t ∈ s.tasks, ∃ d ∈ t.dependencies, d ∉ taskNames s.tasks) :
    validateTasks s = (false, missingDepErrors s.tasks, s) ∧
      (∀ t ∈ s.tasks, ∀ d ∈ t.dependencies, d ∉ taskNames s.tasks →
        SchedError.missingDep t.name d ∈ missingDepErrors s.tasks) ∧
      (∀ t ∈ s.tasks, ∀ d, d ∉ taskNames s.tasks →
        (missingDepErrors s.tasks).count (SchedError.missingDep t.name d) =
          t.dependencies.count d) := by
  obtain ⟨t0, ht0, d0, hd0, hd0m⟩ := hmiss
  have hmem0 := mem_missingDepErrors ht0 hd0 hd0m
  have hempty : ¬ ((missingDepErrors s.tasks).isEmpty = true) := by
    rw [List.isEmpty_iff]
    intro h
    rw [h] at hmem0
    exact absurd hmem0 (List.not_mem_nil _)
  refine ⟨?_, ?_, ?_⟩
  · simp only [validateTasks, if_neg hempty]
  · intro t ht d hd hdm
    exact mem_missingDepErrors ht hd hdm
  · intro t ht d hdm
    exact count_missingDepErrors hnd ht d hdm

/-- Witness for C4: `A` references the two undefined names `Z` and `Y`,
`B` references the undefined name `Z`. -/
theorem C4_missing_reported_witness :
    (taskNames [(⟨"A", 1, ["Z", "Y"]⟩ : Task), ⟨"B", 1, ["Z"]⟩]).Nodup ∧
      (∃ t ∈ [(⟨"A", 1, ["Z", "Y"]⟩ : Task), ⟨"B", 1, ["Z"]⟩],
        ∃ d ∈ t.dependencies,
          d ∉ taskNames [(⟨"A", 1, ["Z", "Y"]⟩ : Task), ⟨"B", 1, ["Z"]⟩]) ∧
      (validateTasks ⟨[⟨"A", 1, ["Z", "Y"]⟩, ⟨"B", 1, ["Z"]⟩], []⟩ =
          (false, missingDepErrors [⟨"A", 1, ["Z", "Y"]⟩, ⟨"B", 1, ["Z"]⟩],
            ⟨[⟨"A", 1, ["Z", "Y"]⟩, ⟨"B", 1, ["Z"]⟩], []⟩) ∧
        (∀ t ∈ [(⟨"A", 1, ["Z", "Y"]⟩ : Task), ⟨"B", 1, ["Z"]⟩],
          ∀ d ∈ t.dependencies,
            d ∉ taskNames [(⟨"A", 1, ["Z", "Y"]⟩ : Task), ⟨"B", 1, ["Z"]⟩] →
            SchedError.missingDep t.name d ∈
              missingDepErrors [⟨"A", 1, ["Z", "Y"]⟩, ⟨"B", 1, ["Z"]⟩]) ∧
        (∀ t ∈ [(⟨"A", 1, ["Z", "Y"]⟩ : Task), ⟨"B", 1, ["Z"]⟩], ∀ d,
          d ∉ taskNames [(⟨"A", 1, ["Z", "Y"]⟩ : Task), ⟨"B", 1, ["Z"]⟩] →
          (missingDepErrors [(⟨"A", 1, ["Z", "Y"]⟩ : Task), ⟨"B", 1, ["Z"]⟩]).count
              (SchedError.missingDep t.name d) = t.dependencies.count d)) := by
  have hnd : (taskNames [(⟨"A", 1, ["Z", "Y"]⟩ : Task), ⟨"B", 1, ["Z"]⟩]).Nodup := by
    decide
  have hmiss : ∃ t ∈ [(⟨"A", 1, ["Z", "Y"]⟩ : Task), ⟨"B", 1, ["Z"]⟩],
      ∃ d ∈ t.dependencies,
        d ∉ taskNames [(⟨"A", 1, ["Z", "Y"]⟩ : Task), ⟨"B", 1, ["Z"]⟩] := by
    decide
  exact ⟨hnd, hmiss,
    C4_missing_reported ⟨[⟨"A", 1, ["Z", "Y"]⟩, ⟨"B", 1, ["Z"]⟩], []⟩ hnd hmiss⟩

/-- Claim C5: two collections holding the same tasks (same names, same
durations, same dependency sets) registered in different insertion orders
produce the same expected total runtime. -/
theorem C5_order_invariant (t1 t2 : List Task)
    (hnd1 : (taskNames t1).Nodup) (hres1 : Resolvable t1)
    (hacyc1 : WellFounded (depRel t1))
    (hperm : (taskNames t1).Perm (taskNames t2))
    (hdeps : ∀ n ∈ taskNames t1, (depsOf t1 n).Perm (depsOf t2 n))
    (hdur : ∀ n ∈ taskNames t1, durOf t1 n = durOf t2 n) :
    ∃ r s1 s2, calcExpectedRuntime ⟨t1, []⟩ = some (r, s1) ∧
      calcExpectedRuntime ⟨t2, []⟩ = some (r, s2) := by
  have hnd2 : (taskNames t2).Nodup := hperm.nodup_iff.mp hnd1
  have hres2 : Resolvable t2 := by
    intro u hu dd hd
    have hun2 : u.name ∈ taskNames t2 := mem_taskNames.mpr ⟨u, hu, rfl⟩
    have hun1 : u.name ∈ taskNames t1 := hperm.mem_iff.mpr hun2
    have hdd2 : dd ∈ depsOf t2 u.name := by
      rw [depsOf_of_mem hnd2 hu]
      exact hd
    have hdd1 : dd ∈ depsOf t1 u.name := ((hdeps _ hun1).mem_iff).mpr hdd2
    exact hperm.mem_iff.mp (resolvable_depsOf hres1 hdd1)
  have hacyc2 : WellFounded (depRel t2) := by
    have hsub : Subrelation (depRel t2) (depRel t1) := by
      intro a b hab
      have hab2 : a ∈ depsOf t2 b := mem_depsOf_of_depRel hnd2 hab
      have hb2 : b ∈ taskNames t2 := mem_depsOf_names hab2
      have hb1 : b ∈ taskNames t1 := hperm.mem_iff.mpr hb2
      have hab1 : a ∈ depsOf t1 b := ((hdeps b hb1).mem_iff).mpr hab2
      exact depRel_of_mem_depsOf hab1
    exact Subrelation.wf hsub hacyc1
  obtain ⟨stv1, hfix1, hcalc1⟩ := calc_spec hnd1 hres1 hacyc1
  obtain ⟨stv2, hfix2, hcalc2⟩ := calc_spec hnd2 hres2 hacyc2
  have heq := fix_unique hacyc1 hres1 (fun n => hperm.mem_iff)
    hdeps hdur hfix1 hfix2
  have htot : maxOver ((taskNames t1).map (fun n => stv1 n + durOf t1 n)) =
      maxOver ((taskNames t2).map (fun n => stv2 n + durOf t2 n)) := by
    have h1 : maxOver ((taskNames t1).map (fun n => stv1 n + durOf t1 n)) =
        maxOver ((taskNames t1).map (fun n => stv2 n + durOf t2 n)) := by
      apply maxOver_map_congr
      intro n hn
      rw [heq n hn, hdur n hn]
    rw [h1]
    exact maxOver_perm (hperm.map (fun n => stv2 n + durOf t2 n))
  refine ⟨maxOver ((taskNames t1).map (fun n => stv1 n + durOf t1 n)),
    ⟨t1, kahnResult t1⟩, ⟨t2, kahnResult t2⟩, hcalc1, ?_⟩
  rw [hcalc2, htot]

/-- Witness for C5: Scenario 1 versus the same tasks registered in a
different insertion order (and with `D`'s dependency set written in the
other order). -/
theorem C5_order_invariant_witness :
    (taskNames exTasks).Nodup ∧ Resolvable exTasks ∧
      (taskNames exTasks).Perm (taskNames exTasksShuffled) ∧
      (∃ r s1 s2, calcExpectedRuntime ⟨exTasks, []⟩ = some (r, s1) ∧
        calcExpectedRuntime ⟨exTasksShuffled, []⟩ = some (r, s2)) := by
  have hnd : (taskNames exTasks).Nodup := by decide
  have hres : Resolvable exTasks := by unfold Resolvable; decide
  have hacyc : WellFounded (depRel exTasks) :=
    wf_of_rank exTasks exRank (by decide)
  have hperm : (taskNames exTasks).Perm (taskNames exTasksShuffled) := by decide
  have hdeps : ∀ n ∈ taskNames exTasks,
      (depsOf exTasks n).Perm (depsOf exTasksShuffled n) := by decide
  have hdur : ∀ n ∈ taskNames exTasks,
      durOf exTasks n = durOf exTasksShuffled n := by decide
  exact ⟨hnd, hres, hperm,
    C5_order_invariant exTasks exTasksShuffled hnd hres hacyc hperm hdeps hdur⟩

/-- Claim C6: on a valid collection, replacing one task's duration with a
larger value never decreases the expected total runtime. -/
theorem C6_monotone (ts : List Task) (hnd : (taskNames ts).Nodup)
    (hres : Resolvable ts) (hacyc : WellFounded (depRel ts))
    (t : Task) (ht : t ∈ ts) (d2 : Nat) (hd2 : t.duration ≤ d2) :
    ∃ r1 s1 r2 s2, calcExpectedRuntime ⟨ts, []⟩ = some (r1, s1) ∧
      calcExpectedRuntime ⟨setDuration ts t.name d2, []⟩ = some (r2, s2) ∧
      r1 ≤ r2 := by
  have hnd2 : (taskNames (setDuration ts t.name d2)).Nodup := by
    rw [taskNames_setDuration]
    exact hnd
  have hres2 : Resolvable (setDuration ts t.name d2) :=
    resolvable_setDuration _ _ hres
  have hacyc2 : WellFounded (depRel (setDuration ts t.name d2)) := by
    rw [depRel_setDuration]
    exact hacyc
  obtain ⟨stv1, hfix1, hcalc1⟩ := calc_spec hnd hres hacyc
  obtain ⟨stv2, hfix2, hcalc2⟩ := calc_spec hnd2 hres2 hacyc2
  have hdurle : ∀ n ∈ taskNames ts, durOf ts n ≤ durOf (setDuration ts t.name d2) n := by
    intro n _
    apply durOf_le_setDuration
    rw [durOf_of_mem hnd ht]
    exact hd2
  have hle := fix_mono hacyc hres (taskNames_setDuration ts t.name d2).symm
    (fun n => (depsOf_setDuration ts t.name d2 n).symm) hdurle hfix1 hfix2
  refine ⟨_, _, _, _, hcalc1, hcalc2, ?_⟩
  rw [taskNames_setDuration]
  apply maxOver_map_le
  intro n hn
  exact Nat.add_le_add (hle n hn) (hdurle n hn)

/-- Witness for C6: increasing `B`'s duration from 3 to 5 in Scenario 1. -/
theorem C6_monotone_witness :
    (taskNames exTasks).Nodup ∧ Resolvable exTasks ∧
      (⟨"B", 3, ["A"]⟩ : Task) ∈ exTasks ∧ (3 : Nat) ≤ 5 ∧
      (∃ r1 s1 r2 s2, calcExpectedRuntime ⟨exTasks, []⟩ = some (r1, s1) ∧
        calcExpectedRuntime ⟨setDuration exTasks "B" 5, []⟩ = some (r2, s2) ∧
        r1 ≤ r2) := by
  have hnd : (taskNames exTasks).Nodup := by decide
  have hres : Resolvable exTasks := by unfold Resolvable; decide
  have hacyc : WellFounded (depRel exTasks) :=
    wf_of_rank exTasks exRank (by decide)
  have hmem : (⟨"B", 3, ["A"]⟩ : Task) ∈ exTasks := by decide
  exact ⟨hnd, hres, hmem, by omega,
    C6_monotone exTasks hnd hres hacyc ⟨"B", 3, ["A"]⟩ hmem 5 (by decide)⟩

/-- Claim C7: in every state the execution engine can reach, each task's
observation fields have been written at most once (at most one `start`
writing `start_time` and one `complete` writing `end_time` and
`actual_duration`), and no task starts before every one of its
dependencies has been observed complete. -/
theorem C7_execution_safety (ts : List Task) (σ : ExecState)
    (hreach : execReachable ts σ) :
    WritesAtMostOnce σ ∧ DepsCompleteBeforeStart ts σ.trace := by
  have hinv := execInv_reachable hreach
  refine ⟨?_, hinv.order_ok⟩
  intro n
  constructor
  · rw [hinv.start_count n]
    by_cases h : n ∈ σ.active ∨ n ∈ σ.completed <;> simp [h]
  · rw [hinv.complete_count n]
    by_cases h : n ∈ σ.completed <;> simp [h]

/-- Witness for C7: run `A` to completion and then start `B` on the
two-task collection. -/
theorem C7_execution_safety_witness :
    execReachable exec2Tasks execFinal ∧
      (WritesAtMostOnce execFinal ∧
        DepsCompleteBeforeStart exec2Tasks execFinal.trace) := by
  have h1 : execStep exec2Tasks initExecState
      ⟨[ExecEvent.start "A"], ["A"], []⟩ :=
    execStep.startTask initExecState "A" (by decide) (by decide) (by decide)
      (by decide)
  have h2 : execStep exec2Tasks ⟨[ExecEvent.start "A"], ["A"], []⟩
      ⟨[ExecEvent.start "A", ExecEvent.complete "A"], [], ["A"]⟩ :=
    execStep.completeTask ⟨[ExecEvent.start "A"], ["A"], []⟩ "A" (by decide)
  have h3 : execStep exec2Tasks
      ⟨[ExecEvent.start "A", ExecEvent.complete "A"], [], ["A"]⟩ execFinal :=
    execStep.startTask ⟨[ExecEvent.start "A", ExecEvent.complete "A"], [], ["A"]⟩
      "B" (by decide) (by decide) (by decide) (by decide)
  have hreach : execReachable exec2Tasks execFinal :=
    Relation.ReflTransGen.tail
      (Relation.ReflTransGen.tail
        (Relation.ReflTransGen.tail Relation.ReflTransGen.refl h1) h2) h3
  exact ⟨hreach, C7_execution_safety exec2Tasks execFinal hreach⟩

/-- Counterexample to claim C8: after the scheduler has cached the order
`["A"]` and `add_task(B)` has been called, a subsequent estimate reuses
the stale cached order (yielding 2 and keeping order `["A"]`) instead of
recomputing over the updated collection (which would give order
`["A","B"]` and estimate 5). -/
theorem C8_counterexample :
    c8s2.tasks = [⟨"A", 2, []⟩, ⟨"B", 3, ["A"]⟩] ∧
      c8s2.execution_order = ["A"] ∧
      calcExpectedRuntime c8s2 = some (2, c8s2) ∧
      topologicalSort c8s2.tasks = some ["A", "B"] ∧
      calcExpectedRuntime ⟨c8s2.tasks, []⟩ =
        some (5, ⟨c8s2.tasks, ["A", "B"]⟩) ∧
      (2 : Nat) ≠ 5 := by
  refine ⟨by decide, by decide, by decide, by decide, by decide, by decide⟩

/-- Amended claim C8: the execution order is recomputed only when the
cache is empty; `add_task` does not invalidate the cache, so when an
order is already cached, a later estimate reuses it (the scheduler it
returns still carries the pre-`add_task` order). -/
theorem C8_cache_stale (s : Scheduler) (t : Task)
    (hne : s.execution_order ≠ []) {r : Nat} {s2 : Scheduler}
    (hcalc : calcExpectedRuntime (addTask s t) = some (r, s2)) :
    (addTask s t).execution_order = s.execution_order ∧
      s2.execution_order = s.execution_order := by
  refine ⟨rfl, ?_⟩
  have hord : (addTask s t).execution_order = s.execution_order := rfl
  have hemp : (addTask s t).execution_order.isEmpty = false := by
    cases h : (addTask s t).execution_order.isEmpty
    · rfl
    · exact absurd (List.isEmpty_iff.mp (hord ▸ h)) hne
  rw [calcExpectedRuntime, hemp] at hcalc
  simp only [Bool.false_eq_true, if_false] at hcalc
  rcases hst : computeStartTimes (addTask s t).tasks (addTask s t).execution_order
      (fun _ => none) with _ | st
  · simp only [hst] at hcalc
    cases hcalc
  · simp only [hst] at hcalc
    rcases htot : totalRuntime (addTask s t).tasks st 0
        (addTask s t).execution_order with _ | total
    · simp only [htot] at hcalc
      cases hcalc
    · simp only [htot, Option.some.injEq, Prod.mk.injEq] at hcalc
      rw [← hcalc.2]
      exact hord

/-- Witness for the amended C8 at the concrete stale-cache scenario. -/
theorem C8_cache_stale_witness :
    c8s1.execution_order ≠ [] ∧
      calcExpectedRuntime (addTask c8s1 ⟨"B", 3, ["A"]⟩) = some (2, c8s2) ∧
      ((addTask c8s1 (⟨"B", 3, ["A"]⟩ : Task)).execution_order =
          c8s1.execution_order ∧
        c8s2.execution_order = c8s1.execution_order) := by
  have hne : c8s1.execution_order ≠ [] := by decide
  have hcalc : calcExpectedRuntime (addTask c8s1 ⟨"B", 3, ["A"]⟩) =
      some (2, c8s2) := by decide
  exact ⟨hne, hcalc, C8_cache_stale c8s1 ⟨"B", 3, ["A"]⟩ hne hcalc⟩

/-- Counterexample to claim C9: on a collection with both a missing
dependency and a cycle, validation returns only the missing-dependency
errors; the cycle error is not surfaced with them. -/
theorem C9_counterexample :
    IsCycle bothTasks ["B", "C"] ∧
      (∃ t ∈ bothTasks, ∃ d ∈ t.dependencies, d ∉ taskNames bothTasks) ∧
      validateTasks ⟨bothTasks, []⟩ =
        (false, [SchedError.missingDep "A" "Z"], ⟨bothTasks, []⟩) ∧
      SchedError.cycle ∉ (validateTasks ⟨bothTasks, []⟩).2.1 := by
  refine ⟨⟨by decide, ?_, by decide⟩, by decide, by decide, by decide⟩
  rw [List.chain'_cons]
  exact ⟨by decide, by simp⟩

/-- Amended claim C9: when any missing-dependency violations exist,
validation reports exactly the batch of missing-dependency errors and
returns invalid without running cycle detection — no cycle error is ever
part of that batch — and the scheduler state is left unchanged, so no
order, estimate, or execution is produced. -/
theorem C9_missing_preempts_cycle (s : Scheduler)
    (hmiss : missingDepErrors s.tasks ≠ []) :
    validateTasks s = (false, missingDepErrors s.tasks, s) ∧
      ∀ e ∈ missingDepErrors s.tasks, e ≠ SchedError.cycle := by
  constructor
  · have hempty : ¬ ((missingDepErrors s.tasks).isEmpty = true) := by
      rw [List.isEmpty_iff]
      exact hmiss
    simp only [validateTasks, if_neg hempty]
  · intro e he
    rcases List.mem_flatMap.mp he with ⟨u, -, hmm⟩
    rcases List.mem_map.mp hmm with ⟨w, -, heq⟩
    rw [← heq]
    intro hcontra
    cases hcontra

/-- Witness for the amended C9 at the collection with both error kinds. -/
theorem C9_missing_preempts_cycle_witness :
    missingDepErrors bothTasks ≠ [] ∧
      (validateTasks ⟨bothTasks, []⟩ =
        (false, missingDepErrors bothTasks, ⟨bothTasks, []⟩) ∧
        ∀ e ∈ missingDepErrors bothTasks, e ≠ SchedError.cycle) := by
  have hne : missingDepErrors bothTasks ≠ [] := by decide
  exact ⟨hne, C9_missing_preempts_cycle ⟨bothTasks, []⟩ hne⟩

/-- Claim C10: on an acyclic collection with a missing dependency, the
sort itself fails with the circular-dependency error (the `none` result
embeds exactly `ValueError("Circular dependency detected")`), and the
estimator invoked with an empty cache propagates that failure. -/
theorem C10_missing_dep_reported_as_cycle (ts : List Task)
    (hnd : (taskNames ts).Nodup) (hacyc : WellFounded (depRel ts))
    (t : Task) (ht : t ∈ ts) (d : String) (hd : d ∈ t.dependencies)
    (hdm : d ∉ taskNames ts) :
    topologicalSort ts = none ∧ calcExpectedRuntime ⟨ts, []⟩ = none := by
  have hsort := missing_dep_not_sorted hnd ht hd hdm
  refine ⟨hsort, ?_⟩
  rw [calcExpectedRuntime]
  simp only [List.isEmpty_nil, if_true, hsort]

/-- Witness for C10 at the acyclic single-task collection `A(1,[Z])`. -/
theorem C10_missing_dep_witness :
    (taskNames misTasks).Nodup ∧
      (⟨"A", 1, ["Z"]⟩ : Task) ∈ misTasks ∧ "Z" ∈ ["Z"] ∧
      "Z" ∉ taskNames misTasks ∧
      (topologicalSort misTasks = none ∧
        calcExpectedRuntime ⟨misTasks, []⟩ = none) := by
  have hnd : (taskNames misTasks).Nodup := by decide
  have hacyc : WellFounded (depRel misTasks) :=
    wf_of_rank misTasks misRank (by decide)
  have hmem : (⟨"A", 1, ["Z"]⟩ : Task) ∈ misTasks := by decide
  have hdep : "Z" ∈ (⟨"A", 1, ["Z"]⟩ : Task).dependencies := by decide
  have hdm : "Z" ∉ taskNames misTasks := by decide
  exact ⟨hnd, hmem, hdep, hdm,
    C10_missing_dep_reported_as_cycle misTasks hnd hacyc ⟨"A", 1, ["Z"]⟩ hmem
      "Z" hdep hdm⟩

end TaskSched
